import Mathlib

/-!
A verification development for the `maze_algo` repository: a shallow
embedding of the weighted quick-union disjoint set with two-pass path
compression (`disjoint_set.py`), its maze-cell adapter (`cell_dset.py`)
and the Kruskal-style maze generator (`kruskal_gen.py`), followed by
theorems about them.  Dictionaries are modelled as total functions and
the two random draws (the wall shuffle and the cosmetic selection) are
explicit parameters.
-/

namespace MazeAlgo

/-!
Verification of the `maze_algo` repository: a weighted quick-union
disjoint set with path compression (`disjoint_set.py`), a coordinate
adapter (`cell_dset.py`), and a randomized Kruskal maze generator
(`kruskal_gen.py`).  The Python classes are shallowly embedded as Lean
structures with explicit state passing; dictionaries keyed by machine
integers become total functions `Nat → Nat` (Python raises `KeyError`
on a missing key; such lookups are never performed by the program on
the inputs considered here, and are modelled as junk values).
-/
/-! ### `disjoint_set.py`, class `WeightQuickUnionDisjointSet` -/
/-- State of a `WeightQuickUnionDisjointSet`: `n` is the number of keys
`0..n-1` installed in `parent_map`/`sz_map` by `__init__`, `parent` and
`sz` are the two dictionaries, `cnt` is the `_count` attribute (an `Int`,
since Python's `__init__` stores `n` itself, which may be negative). -/
structure WQU where
  n : Nat
  parent : Nat → Nat
  sz : Nat → Nat
  cnt : Int

/-- `WeightQuickUnionDisjointSet.__init__(n)` for an arbitrary integer
`n`: `_count = n`, and `for i in range(n): parent_map[i] = i; sz_map[i] = 1`
(an empty loop when `n ≤ 0`).  There is no validation of `n` in the
source. -/
def WQU.initI (m : Int) : WQU :=
  { n := m.toNat
    parent := fun i => i
    sz := fun _ => 1
    cnt := m }

/-- `WeightQuickUnionDisjointSet(n)` for a natural size. -/
def WQU.init (n : Nat) : WQU := WQU.initI n

/-- The first `while` loop of `find`: follow parent pointers until a
self-parented node is reached.  The Python loop is unbounded; `fuel`
bounds the recursion and `n` steps always suffice on the well-formed
states arising from the API (proved below). -/
def rootAux (f : Nat → Nat) : Nat → Nat → Nat
  | 0, p => p
  | fuel + 1, p => if f p = p then p else rootAux f fuel (f p)

/-- The non-root nodes visited on the way from `p` to its root, in
order.  This is the list of nodes the compression loop of `find`
repoints. -/
def pathList (f : Nat → Nat) : Nat → Nat → List Nat
  | 0, _ => []
  | fuel + 1, p => if f p = p then [] else p :: pathList f fuel (f p)

/-- The second `while` loop of `find` (path compression): walk from `p`
again, repointing every visited node to `r` and resetting its recorded
size to the constant `2`
(`parent_map[p_last] = q; sz_map[p_last] = 2`). -/
def findLoop (r : Nat) : Nat → (Nat → Nat) → (Nat → Nat) → Nat →
    (Nat → Nat) × (Nat → Nat)
  | 0, f, sz, _ => (f, sz)
  | fuel + 1, f, sz, p =>
    if f p = p then (f, sz)
    else findLoop r fuel (Function.update f p r) (Function.update sz p 2) (f p)

/-- `WeightQuickUnionDisjointSet.find(p)`: locate the root without
mutation, then compress the path, returning the updated state and the
root. -/
def WQU.find (s : WQU) (p : Nat) : WQU × Nat :=
  let r := rootAux s.parent s.n p
  let fs := findLoop r s.n s.parent s.sz p
  (⟨s.n, fs.1, fs.2, s.cnt⟩, r)

/-- `WeightQuickUnionDisjointSet.union(p, q)`: find the two roots (with
compression); if they coincide, return; otherwise attach the root of the
smaller tree below the root of the larger tree, add the sizes at the
surviving root, and decrement `_count`. -/
def WQU.union (s : WQU) (p q : Nat) : WQU :=
  let fp := s.find p
  let fq := fp.1.find q
  let pRoot := fp.2
  let qRoot := fq.2
  let s2 := fq.1
  if qRoot = pRoot then s2
  else if s2.sz pRoot < s2.sz qRoot then
    ⟨s2.n, Function.update s2.parent pRoot qRoot,
      Function.update s2.sz qRoot (s2.sz pRoot + s2.sz qRoot), s2.cnt - 1⟩
  else
    ⟨s2.n, Function.update s2.parent qRoot pRoot,
      Function.update s2.sz pRoot (s2.sz pRoot + s2.sz qRoot), s2.cnt - 1⟩

/-- `WeightQuickUnionDisjointSet.is_connected(p, q)`:
`find(p) == find(q)`; both `find`s mutate the state (compression), so the
updated state is returned along with the boolean. -/
def WQU.is_connected (s : WQU) (p q : Nat) : WQU × Bool :=
  let fp := s.find p
  let fq := fp.1.find q
  (fq.1, fp.2 == fq.2)

/-- `WeightQuickUnionDisjointSet.count()`. -/
def WQU.count (s : WQU) : Int := s.cnt

/-- Run a sequence of `union(p, q)` calls on a freshly constructed
disjoint set of size `n`. -/
def execUnions (n : Nat) (ops : List (Nat × Nat)) : WQU :=
  ops.foldl (fun s pq => s.union pq.1 pq.2) (WQU.init n)

/-- The directed edge relation given by a list of `union` calls. -/
def opRel (ops : List (Nat × Nat)) (a b : Nat) : Prop := (a, b) ∈ ops

/-- All `union` arguments in the list are in range. -/
def OpsInRange (n : Nat) (ops : List (Nat × Nat)) : Prop :=
  ∀ pq ∈ ops, pq.1 < n ∧ pq.2 < n

instance (n : Nat) (ops : List (Nat × Nat)) : Decidable (OpsInRange n ops) :=
  inferInstanceAs (Decidable (∀ pq ∈ ops, _ ∧ _))

/-! ### Well-formedness of parent maps and correctness of `rootAux` -/
/-- `ReachRoot f x ρ`: following parent pointers from `x` reaches the
self-parented node `ρ`. -/
inductive ReachRoot (f : Nat → Nat) : Nat → Nat → Prop
  | root (x : Nat) : f x = x → ReachRoot f x x
  | step (x ρ : Nat) : f x ≠ x → ReachRoot f (f x) ρ → ReachRoot f x ρ

/-- A parent map is well-founded on `[0, n)` if some rank function
strictly increases along parent pointers. -/
def WfRank (n : Nat) (f : Nat → Nat) : Prop :=
  ∃ r : Nat → Nat, ∀ x, x < n → f x ≠ x → r x < r (f x)

/-- Basic well-formedness of a disjoint-set state: parent pointers stay
in range and are acyclic. -/
structure Inv (s : WQU) : Prop where
  range : ∀ x, x < s.n → s.parent x < s.n
  wf : WfRank s.n s.parent

/-- The semantic root of `x` in state `s`. -/
def rootOf (s : WQU) (x : Nat) : Nat := rootAux s.parent s.n x

/-- A root of the state: a self-parented in-range node. -/
def roots (s : WQU) : Finset Nat :=
  (Finset.range s.n).filter (fun x => s.parent x = x)

/-- The component (set of elements) of a given root. -/
def comp (s : WQU) (ρ : Nat) : Finset Nat :=
  (Finset.range s.n).filter (fun y => rootOf s y = ρ)

/-- `Tracks n ops s`: the state `s` is what a
`WeightQuickUnionDisjointSet(n)` looks like after the `union` calls in
`ops`: it is well-formed, its partition is the equivalence closure of
`ops`, `_count` equals the number of roots, and every root records the
exact size of its component. -/
structure Tracks (n : Nat) (ops : List (Nat × Nat)) (s : WQU) : Prop where
  hn : s.n = n
  inv : Inv s
  conn : ∀ a b, a < n → b < n →
    (rootOf s a = rootOf s b ↔ Relation.EqvGen (opRel ops) a b)
  cnt : s.cnt = ((roots s).card : Int)
  szx : ∀ x, x < n → s.parent x = x → s.sz x = (comp s x).card

/-! ### Compressing every element (for the height-one property) -/
/-- The direct parent of `j` is a root. -/
def RootParent (t : WQU) (j : Nat) : Prop :=
  t.parent (t.parent j) = t.parent j

/-! ### A hypothetical exact-size variant of `find` (for the size-reset
quirk): identical to `find` except that the compression loop leaves
`sz_map` untouched, so recorded sizes are never overwritten with the
constant `2`. -/
/-- Compression loop that repoints parents but does not touch sizes. -/
def findLoopE (r : Nat) : Nat → (Nat → Nat) → Nat → (Nat → Nat)
  | 0, f, _ => f
  | fuel + 1, f, p =>
    if f p = p then f
    else findLoopE r fuel (Function.update f p r) (f p)

/-- `find` with exact (non-reset) sizes. -/
def findE (s : WQU) (p : Nat) : WQU × Nat :=
  let r := rootAux s.parent s.n p
  (⟨s.n, findLoopE r s.n s.parent p, s.sz, s.cnt⟩, r)

/-- `union` built on the exact-size `find`. -/
def unionE (s : WQU) (p q : Nat) : WQU :=
  let fp := findE s p
  let fq := findE fp.1 q
  let pRoot := fp.2
  let qRoot := fq.2
  let s2 := fq.1
  if qRoot = pRoot then s2
  else if s2.sz pRoot < s2.sz qRoot then
    ⟨s2.n, Function.update s2.parent pRoot qRoot,
      Function.update s2.sz qRoot (s2.sz pRoot + s2.sz qRoot), s2.cnt - 1⟩
  else
    ⟨s2.n, Function.update s2.parent qRoot pRoot,
      Function.update s2.sz pRoot (s2.sz pRoot + s2.sz qRoot), s2.cnt - 1⟩

/-- `is_connected` built on the exact-size `find`. -/
def is_connectedE (s : WQU) (p q : Nat) : WQU × Bool :=
  let fp := findE s p
  let fq := findE fp.1 q
  (fq.1, fp.2 == fq.2)

def execUnionsE (n : Nat) (ops : List (Nat × Nat)) : WQU :=
  ops.foldl (fun s pq => unionE s pq.1 pq.2) (WQU.init n)

/-- States of the real and the exact-size runs agree on everything
except the sizes recorded at non-roots. -/
structure SzAgree (s t : WQU) : Prop where
  hn : t.n = s.n
  hparent : t.parent = s.parent
  hcnt : t.cnt = s.cnt
  hszr : ∀ x, s.parent x = x → t.sz x = s.sz x

/-! ### `cell_dset.py`: the coordinate adapter `MazeCellDSet` -/
/-- Building `index_map`: `for i, (x, y) in enumerate(point_ls):
index_map[x + y * width] = i`. -/
def buildIndexMapAux (w : Nat) : Nat → List (Nat × Nat) → (Nat → Nat) →
    (Nat → Nat)
  | _, [], m => m
  | i, p :: rest, m =>
    buildIndexMapAux w (i + 1) rest (Function.update m (p.1 + p.2 * w) i)

/-- The raw-index-to-dense-id dictionary of `MazeCellDSet.__init__`.
A raw index absent from the dictionary raises `KeyError` in Python; the
generator never queries such an index, and the total-function model
returns the junk value `0` there. -/
def buildIndexMap (w : Nat) (pts : List (Nat × Nat)) : Nat → Nat :=
  buildIndexMapAux w 0 pts (fun _ => 0)

/-- State of a `MazeCellDSet`. -/
structure MazeCellDSet where
  width : Nat
  height : Nat
  index_map : Nat → Nat
  dset : WQU

/-- `MazeCellDSet.__init__(point_ls, width, height)`. -/
def MazeCellDSet.init (point_ls : List (Nat × Nat)) (width height : Nat) :
    MazeCellDSet :=
  ⟨width, height, buildIndexMap width point_ls, WQU.init point_ls.length⟩

/-- `MazeCellDSet._find(x, y)`: translate the coordinate to a raw grid
index, then to a dense id, and run the (mutating) disjoint-set `find`. -/
def MazeCellDSet.findXY (c : MazeCellDSet) (x y : Nat) : MazeCellDSet × Nat :=
  let f := c.dset.find (c.index_map (x + y * c.width))
  (⟨c.width, c.height, c.index_map, f.1⟩, f.2)

/-- `MazeCellDSet.is_connected(x1, y1, x2, y2)`:
`self._find(x1, y1) == self._find(x2, y2)` (both finds compress). -/
def MazeCellDSet.is_connected (c : MazeCellDSet) (x1 y1 x2 y2 : Nat) :
    MazeCellDSet × Bool :=
  let f1 := c.findXY x1 y1
  let f2 := f1.1.findXY x2 y2
  (f2.1, f1.2 == f2.2)

/-- `MazeCellDSet.union(x1, y1, x2, y2)`. -/
def MazeCellDSet.union (c : MazeCellDSet) (x1 y1 x2 y2 : Nat) : MazeCellDSet :=
  ⟨c.width, c.height, c.index_map,
    c.dset.union (c.index_map (x1 + y1 * c.width))
      (c.index_map (x2 + y2 * c.width))⟩

/-- `MazeCellDSet.count()`. -/
def MazeCellDSet.count (c : MazeCellDSet) : Int := c.dset.cnt

/-! ### `kruskal_gen.py`: the maze generator `KruskalMaze` -/
/-- `range(0, n, 2)`: the even numbers below `n` in increasing order. -/
def evens (n : Nat) : List Nat := (List.range n).filter (fun v => v % 2 == 0)

/-- `range(1, n, 2)`: the odd numbers below `n` in increasing order. -/
def odds (n : Nat) : List Nat := (List.range n).filter (fun v => v % 2 == 1)

/-- `cell_ls`: room cells, both coordinates even, `x` outer. -/
def cellList (w h : Nat) : List (Nat × Nat) :=
  (evens w).flatMap (fun x => (evens h).map (fun y => (x, y)))

/-- `not_care_ls`: junction dots, both coordinates odd. -/
def notCareList (w h : Nat) : List (Nat × Nat) :=
  (odds w).flatMap (fun x => (odds h).map (fun y => (x, y)))

/-- `wall_ls`: wall candidates, exactly one odd coordinate (odd-`x`
walls first, then odd-`y` walls). -/
def wallList (w h : Nat) : List (Nat × Nat) :=
  (odds w).flatMap (fun x => (evens h).map (fun y => (x, y))) ++
    (evens w).flatMap (fun x => (odds h).map (fun y => (x, y)))

/-- `self.grid[x][y] = v` on a `numpy` array modelled as a function. -/
def setCell (g : Nat → Nat → Nat) (x y v : Nat) : Nat → Nat → Nat :=
  fun a b => if a = x ∧ b = y then v else g a b

/-- `numpy.ones((width, height))`: every cell is a wall. -/
def initialGrid : Nat → Nat → Nat := fun _ _ => 1

/-- `for x, y in cell_ls: self.grid[x][y] = 0`. -/
def markCells (g : Nat → Nat → Nat) (ls : List (Nat × Nat)) :
    Nat → Nat → Nat :=
  ls.foldl (fun g p => setCell g p.1 p.2 0) g

/-- One iteration of the carving loop body for the wall candidate
`(x, y)` (the `count() == 1` break is handled in `carve`). -/
def carveStep (s : MazeCellDSet × (Nat → Nat → Nat)) (wc : Nat × Nat) :
    MazeCellDSet × (Nat → Nat → Nat) :=
  if wc.1 % 2 == 1 then
    let x1 := wc.1 - 1
    let x2 := wc.1 + 1
    let f := s.1.is_connected x1 wc.2 x2 wc.2
    if f.2 then (f.1, s.2)
    else (f.1.union x1 wc.2 x2 wc.2, setCell s.2 wc.1 wc.2 0)
  else
    let y1 := wc.2 - 1
    let y2 := wc.2 + 1
    let f := s.1.is_connected wc.1 y1 wc.1 y2
    if f.2 then (f.1, s.2)
    else (f.1.union wc.1 y1 wc.1 y2, setCell s.2 wc.1 wc.2 0)

/-- The carving loop over the shuffled wall candidates, with the
`if cell_dset.count() == 1: break` check at the top of each iteration. -/
def carve (s : MazeCellDSet × (Nat → Nat → Nat)) :
    List (Nat × Nat) → MazeCellDSet × (Nat → Nat → Nat)
  | [] => s
  | wc :: rest => if s.1.count = 1 then s else carve (carveStep s wc) rest

/-- The adapter state and grid after classification, room marking and
the carving loop, as functions of the shuffled wall list `ws`. -/
def carveResult (w h : Nat) (ws : List (Nat × Nat)) :
    MazeCellDSet × (Nat → Nat → Nat) :=
  carve (MazeCellDSet.init (cellList w h) w h,
    markCells initialGrid (cellList w h)) ws

/-- The cosmetic pass: `for i in random.choice(len(not_care_ls),
additional_wall, False): x, y = not_care_ls[i]; self.grid[x][y] = 0`,
as a function of the chosen index list `sel`. -/
def cosmetic (w h : Nat) (g : Nat → Nat → Nat) (sel : List Nat) :
    Nat → Nat → Nat :=
  sel.foldl
    (fun g i =>
      let p := (notCareList w h).getD i (0, 0)
      setCell g p.1 p.2 0) g

/-- The finished maze. -/
structure KruskalMaze where
  width : Nat
  height : Nat
  grid : Nat → Nat → Nat

/-- `KruskalMaze.__init__(width, height)`, with the two random draws
made explicit: `ws` is the shuffled `wall_ls` (`random.shuffle`), and
`sel` the list of junction-dot indices opened by the cosmetic pass
(`random.choice(len(not_care_ls), additional_wall, False)`).  The
dimension validation raises before any grid or disjoint-set structure
is built; the `Except.error` branches reflect that no `KruskalMaze`
value exists in the failing cases. -/
def KruskalMaze.make (width height : Nat) (ws : List (Nat × Nat))
    (sel : List Nat) : Except String KruskalMaze :=
  if height % 2 == 0 || height < 3 then
    Except.error "illegal height because each wall's height is one."
  else if width % 2 == 0 || width < 3 then
    Except.error "illegal width because each wall's width is one."
  else
    Except.ok ⟨width, height,
      cosmetic width height (carveResult width height ws).2 sel⟩

/-- Support of `numpy.random.randint(low, high)`: `numpy`'s `randint`
excludes the upper bound (unlike Python's `random.randint`), so
`additional_wall = random.randint(0, len(not_care_ls))` is drawn
uniformly from `[0, len(not_care_ls))`. -/
def numpy_randint_support (low high : Nat) : Finset Nat :=
  Finset.Ico low high

/-- Support of `numpy.random.choice(n, k, replace=False)`: lists of `k`
distinct indices below `n`. -/
def numpy_choice_support (n k : Nat) : Set (List Nat) :=
  {l : List Nat | l.length = k ∧ l.Nodup ∧ ∀ i ∈ l, i < n}

/-- The dense id assigned by the adapter to a room coordinate. -/
def rid (w h : Nat) (p : Nat × Nat) : Nat :=
  buildIndexMap w (cellList w h) (p.1 + p.2 * w)

/-- A room cell of a `width × height` maze: in range, both coordinates
even. -/
def RoomP (w h : Nat) (p : Nat × Nat) : Prop :=
  p.1 < w ∧ p.2 < h ∧ p.1 % 2 = 0 ∧ p.2 % 2 = 0

instance (w h : Nat) (p : Nat × Nat) : Decidable (RoomP w h p) :=
  inferInstanceAs (Decidable (_ ∧ _ ∧ _ ∧ _))

def Room (w h : Nat) := {p : Nat × Nat // RoomP w h p}

/-- Adjacency between two grid coordinates through an open wall
candidate of the grid `g`: same column and two apart with the wall cell
between them passable, or same row and two apart likewise. -/
def wallAdj (g : Nat → Nat → Nat) (p q : Nat × Nat) : Prop :=
  (p.1 = q.1 ∧ (q.2 = p.2 + 2 ∧ g p.1 (p.2 + 1) = 0 ∨
                p.2 = q.2 + 2 ∧ g p.1 (q.2 + 1) = 0)) ∨
  (p.2 = q.2 ∧ (q.1 = p.1 + 2 ∧ g (p.1 + 1) p.2 = 0 ∨
                p.1 = q.1 + 2 ∧ g (q.1 + 1) p.2 = 0))

/-- The graph of room cells joined by passable wall candidates. -/
def roomGraph (w h : Nat) (g : Nat → Nat → Nat) : SimpleGraph (Room w h) where
  Adj u v := wallAdj g u.val v.val
  symm := by
    intro u v hadj
    rcases hadj with ⟨h1, h2 | h2⟩ | ⟨h1, h2 | h2⟩
    · exact Or.inl ⟨h1.symm, Or.inr ⟨h2.1, h1 ▸ h2.2⟩⟩
    · exact Or.inl ⟨h1.symm, Or.inl ⟨h2.1, h1 ▸ h2.2⟩⟩
    · exact Or.inr ⟨h1.symm, Or.inr ⟨h2.1, h1 ▸ h2.2⟩⟩
    · exact Or.inr ⟨h1.symm, Or.inl ⟨h2.1, h1 ▸ h2.2⟩⟩
  loopless := by
    intro u hadj
    rcases hadj with ⟨_, h2 | h2⟩ | ⟨_, h2 | h2⟩ <;> omega

/-- Number of wall-candidate cells currently passable. -/
def passableWallCount (w h : Nat) (g : Nat → Nat → Nat) : Nat :=
  ((wallList w h).filter (fun p => g p.1 p.2 == 0)).length

/-! ### Wall geometry -/
/-- The two room cells separated by a wall candidate: `(x-1, y)` and
`(x+1, y)` when `x` is odd, `(x, y-1)` and `(x, y+1)` when `y` is odd. -/
def wallRooms (p : Nat × Nat) : (Nat × Nat) × (Nat × Nat) :=
  if p.1 % 2 == 1 then ((p.1 - 1, p.2), (p.1 + 1, p.2))
  else ((p.1, p.2 - 1), (p.1, p.2 + 1))

/-- The dense-id pair the carving loop passes to `union` for a wall. -/
def wallOp (w h : Nat) (p : Nat × Nat) : Nat × Nat :=
  (rid w h (wallRooms p).1, rid w h (wallRooms p).2)

/-- The loop invariant of the carving phase: `A` is the list of id
pairs passed to `union` for the walls opened so far. -/
structure CarveInv (w h : Nat) (A : List (Nat × Nat))
    (s : MazeCellDSet × (Nat → Nat → Nat)) : Prop where
  hwidth : s.1.width = w
  hheight : s.1.height = h
  hmap : s.1.index_map = buildIndexMap w (cellList w h)
  tracks : Tracks (cellList w h).length A s.1.dset
  hA : OpsInRange (cellList w h).length A
  wallmatch : ∀ p ∈ wallList w h, (s.2 p.1 p.2 = 0 ↔ wallOp w h p ∈ A)
  apairs : ∀ ij ∈ A, ∃ p ∈ wallList w h, wallOp w h p = ij
  rooms : ∀ p ∈ cellList w h, s.2 p.1 p.2 = 0
  acyc : (roomGraph w h s.2).IsAcyclic
  cntp : s.1.dset.cnt =
    ((cellList w h).length : Int) - (passableWallCount w h s.2 : Int)

theorem ReachRoot.unique {f : Nat → Nat} {x ρ₁ ρ₂ : Nat}
    (h₁ : ReachRoot f x ρ₁) (h₂ : ReachRoot f x ρ₂) : ρ₁ = ρ₂ := by
  induction h₁ with
  | root x hx =>
    cases h₂ with
    | root _ _ => rfl
    | step _ _ hne _ => exact absurd hx hne
  | step x ρ hne _ ih =>
    cases h₂ with
    | root _ hx => exact absurd hx hne
    | step _ _ _ h' => exact ih h'

theorem ReachRoot.fixed {f : Nat → Nat} {x ρ : Nat}
    (h : ReachRoot f x ρ) : f ρ = ρ := by
  induction h with
  | root _ hx => exact hx
  | step _ _ _ _ ih => exact ih

/-- From any rank function one with values below `n` can be carved out,
by replacing each value with the number of smaller values taken on
`[0, n)`. -/
theorem WfRank.bounded {n : Nat} {f : Nat → Nat} (h : WfRank n f) :
    ∃ r : Nat → Nat, (∀ x, x < n → r x < n) ∧
      ∀ x, x < n → f x ≠ x → r x < r (f x) := by
  obtain ⟨r, hr⟩ := h
  refine ⟨fun x => ((Finset.range n).filter (fun y => r y < r x)).card,
    fun x hx => ?_, fun x hx hne => ?_⟩
  · calc ((Finset.range n).filter (fun y => r y < r x)).card
        ≤ ((Finset.range n).erase x).card := by
          apply Finset.card_le_card
          intro y hy
          simp only [Finset.mem_filter, Finset.mem_range] at hy
          simp only [Finset.mem_erase, Finset.mem_range]
          exact ⟨fun hyx => absurd hy.2 (by simp [hyx]), hy.1⟩
      _ < n := by
          rw [Finset.card_erase_of_mem (Finset.mem_range.2 hx), Finset.card_range]
          omega
  · have hsub : (Finset.range n).filter (fun y => r y < r x) ⊆
        (Finset.range n).filter (fun y => r y < r (f x)) := by
      intro y hy
      simp only [Finset.mem_filter] at hy ⊢
      exact ⟨hy.1, lt_trans hy.2 (hr x hx hne)⟩
    have hx' : x ∈ (Finset.range n).filter (fun y => r y < r (f x)) := by
      simp only [Finset.mem_filter, Finset.mem_range]
      exact ⟨hx, hr x hx hne⟩
    have hxnot : x ∉ (Finset.range n).filter (fun y => r y < r x) := by
      simp
    calc ((Finset.range n).filter (fun y => r y < r x)).card
        < (insert x ((Finset.range n).filter (fun y => r y < r x))).card := by
          rw [Finset.card_insert_of_not_mem hxnot]; omega
      _ ≤ ((Finset.range n).filter (fun y => r y < r (f x))).card := by
          apply Finset.card_le_card
          intro y hy
          rcases Finset.mem_insert.1 hy with rfl | hy
          · exact hx'
          · exact hsub hy

/-- With enough fuel (`n - rank x` suffices), `rootAux` reaches a
self-parented node. -/
theorem rootAux_reaches {n : Nat} {f : Nat → Nat}
    (hrange : ∀ x, x < n → f x < n)
    {r : Nat → Nat} (hb : ∀ x, x < n → r x < n)
    (hr : ∀ x, x < n → f x ≠ x → r x < r (f x)) :
    ∀ fuel x, x < n → n - r x ≤ fuel → ReachRoot f x (rootAux f fuel x) := by
  intro fuel
  induction fuel with
  | zero =>
    intro x hx hfuel
    have := hb x hx
    omega
  | succ fuel ih =>
    intro x hx hfuel
    by_cases hroot : f x = x
    · rw [rootAux, if_pos hroot]
      exact ReachRoot.root x hroot
    · rw [rootAux, if_neg hroot]
      have h1 : r x < r (f x) := hr x hx hroot
      have h2 : f x < n := hrange x hx
      exact ReachRoot.step x _ hroot (ih (f x) h2 (by omega))

/-- On a well-formed state, `rootAux` with fuel `n` reaches the root. -/
theorem rootAux_spec {n : Nat} {f : Nat → Nat}
    (hrange : ∀ x, x < n → f x < n) (hwf : WfRank n f)
    {x : Nat} (hx : x < n) : ReachRoot f x (rootAux f n x) := by
  obtain ⟨r, hb, hr⟩ := hwf.bounded
  exact rootAux_reaches hrange hb hr n x hx (by omega)

theorem rootOf_spec {s : WQU} (hs : Inv s) {x : Nat} (hx : x < s.n) :
    ReachRoot s.parent x (rootOf s x) :=
  rootAux_spec hs.range hs.wf hx

theorem rootOf_fixed {s : WQU} (hs : Inv s) {x : Nat} (hx : x < s.n) :
    s.parent (rootOf s x) = rootOf s x :=
  (rootOf_spec hs hx).fixed

theorem rootOf_eq_of_reach {s : WQU} (hs : Inv s) {x ρ : Nat} (hx : x < s.n)
    (h : ReachRoot s.parent x ρ) : rootOf s x = ρ :=
  (rootOf_spec hs hx).unique h

/-- Roots are in range. -/
theorem ReachRoot.lt {n : Nat} {f : Nat → Nat}
    (hrange : ∀ x, x < n → f x < n) {x ρ : Nat} (hx : x < n)
    (h : ReachRoot f x ρ) : ρ < n := by
  induction h with
  | root x _ => exact hx
  | step x ρ hne hr ih => exact ih (hrange x hx)

theorem rootOf_lt {s : WQU} (hs : Inv s) {x : Nat} (hx : x < s.n) :
    rootOf s x < s.n :=
  (rootOf_spec hs hx).lt hs.range hx

theorem rootOf_eq_self_of_root {s : WQU} (hs : Inv s) {x : Nat} (hx : x < s.n)
    (h : s.parent x = x) : rootOf s x = x :=
  rootOf_eq_of_reach hs hx (ReachRoot.root x h)

theorem rootOf_parent_eq {s : WQU} (hs : Inv s) {x : Nat} (hx : x < s.n)
    (h : s.parent x ≠ x) : rootOf s (s.parent x) = rootOf s x := by
  have hx' : s.parent x < s.n := hs.range x hx
  have h₁ := rootOf_spec hs hx
  generalize hρ : rootOf s x = ρ at h₁ ⊢
  cases h₁ with
  | root _ hroot => exact absurd hroot h
  | step _ ρ hne hr => exact rootOf_eq_of_reach hs hx' hr

/-! ### Characterization of `find` (path compression) -/
theorem mem_pathList {n : Nat} {f : Nat → Nat}
    (hrange : ∀ x, x < n → f x < n) {r : Nat → Nat}
    (hr : ∀ x, x < n → f x ≠ x → r x < r (f x)) :
    ∀ fuel y z, y < n → z ∈ pathList f fuel y →
      r y ≤ r z ∧ z < n ∧ f z ≠ z := by
  intro fuel
  induction fuel with
  | zero => intro y z _ hz; simp [pathList] at hz
  | succ fuel ih =>
    intro y z hy hz
    by_cases hroot : f y = y
    · simp [pathList, hroot] at hz
    · rw [pathList, if_neg hroot] at hz
      rcases List.mem_cons.1 hz with rfl | hz
      · exact ⟨le_refl _, hy, hroot⟩
      · obtain ⟨h1, h2, h3⟩ := ih (f y) z (hrange y hy) hz
        exact ⟨le_of_lt (lt_of_lt_of_le (hr y hy hroot) h1), h2, h3⟩

theorem pathList_update {n : Nat} {f : Nat → Nat} {p v : Nat}
    (hrange : ∀ x, x < n → f x < n) {r : Nat → Nat}
    (hr : ∀ x, x < n → f x ≠ x → r x < r (f x)) :
    ∀ fuel y, y < n → r p < r y →
      pathList (Function.update f p v) fuel y = pathList f fuel y := by
  intro fuel
  induction fuel with
  | zero => intro y _ _; rfl
  | succ fuel ih =>
    intro y hy hpy
    have hyp : y ≠ p := fun h => by rw [h] at hpy; omega
    have hupd : Function.update f p v y = f y := Function.update_noteq hyp v f
    by_cases hroot : f y = y
    · rw [pathList, pathList, hupd, if_pos hroot, if_pos hroot]
    · rw [pathList, pathList, hupd, if_neg hroot, if_neg hroot,
        ih (f y) (hrange y hy) (lt_trans hpy (hr y hy hroot))]

theorem ReachRoot.update_of_rank_lt {n : Nat} {f : Nat → Nat} {p v : Nat}
    {r : Nat → Nat} (hrange : ∀ x, x < n → f x < n)
    (hr : ∀ x, x < n → f x ≠ x → r x < r (f x))
    {y ρ : Nat} (hy : y < n) (hpy : r p < r y)
    (h : ReachRoot f y ρ) : ReachRoot (Function.update f p v) y ρ := by
  induction h with
  | root x hx =>
    have hxp : x ≠ p := fun h => by rw [h] at hpy; omega
    exact ReachRoot.root x (by rw [Function.update_noteq hxp v f]; exact hx)
  | step x ρ hne hrr ih =>
    have hxp : x ≠ p := fun h => by rw [h] at hpy; omega
    have hupd : Function.update f p v x = f x := Function.update_noteq hxp v f
    refine ReachRoot.step x ρ (by rw [hupd]; exact hne) ?_
    rw [hupd]
    exact ih (hrange x hy) (lt_trans hpy (hr x hy hne))

theorem pathList_reach {f : Nat → Nat} :
    ∀ fuel y z ρ, z ∈ pathList f fuel y → ReachRoot f y ρ → ReachRoot f z ρ := by
  intro fuel
  induction fuel with
  | zero => intro y z ρ hz; simp [pathList] at hz
  | succ fuel ih =>
    intro y z ρ hz hy
    by_cases hroot : f y = y
    · simp [pathList, hroot] at hz
    · rw [pathList, if_neg hroot] at hz
      rcases List.mem_cons.1 hz with rfl | hz
      · exact hy
      · cases hy with
        | root _ hx => exact absurd hx hroot
        | step _ _ _ h' => exact ih (f y) z ρ hz h'

/-- Pointwise description of the compression loop: every node on the
path from `p` is repointed to `r` and has its size reset to `2`; all
other entries are untouched. -/
theorem findLoop_eq {n : Nat} :
    ∀ (fuel : Nat) (f sz : Nat → Nat) (p ρ : Nat) (r : Nat → Nat),
      (∀ x, x < n → f x < n) →
      (∀ x, x < n → f x ≠ x → r x < r (f x)) →
      p < n → ReachRoot f p ρ →
      (∀ x, (findLoop ρ fuel f sz p).1 x =
        if x ∈ pathList f fuel p then ρ else f x) ∧
      (∀ x, (findLoop ρ fuel f sz p).2 x =
        if x ∈ pathList f fuel p then 2 else sz x) := by
  intro fuel
  induction fuel with
  | zero =>
    intro f sz p ρ r _ _ _ _
    constructor <;> intro x <;> simp [findLoop, pathList]
  | succ fuel ih =>
    intro f sz p ρ r hrange hr hp hreach
    by_cases hroot : f p = p
    · constructor <;> intro x <;>
        simp [findLoop, pathList, hroot]
    · have hρfix : f ρ = ρ := hreach.fixed
      have hpρ : p ≠ ρ := fun h => hroot (by rw [h] at hroot ⊢; exact hρfix)
      have hρn : ρ < n := hreach.lt hrange hp
      have hreach' : ReachRoot f (f p) ρ := by
        cases hreach with
        | root _ hx => exact absurd hx hroot
        | step _ _ _ h' => exact h'
      have hfpn : f p < n := hrange p hp
      -- a rank for the updated map: push the root's rank above everything
      set M := ((Finset.range n).sup r) + 1 with hM
      have hMgt : ∀ x, x < n → r x < M := by
        intro x hx
        have : r x ≤ (Finset.range n).sup r :=
          Finset.le_sup (Finset.mem_range.2 hx)
        omega
      set f₁ := Function.update f p ρ with hf₁
      set r₁ := Function.update r ρ M with hr₁
      have hrange₁ : ∀ x, x < n → f₁ x < n := by
        intro x hx
        by_cases hxp : x = p
        · subst hxp; rw [hf₁, Function.update_same]; exact hρn
        · rw [hf₁, Function.update_noteq hxp]; exact hrange x hx
      have hr₁' : ∀ x, x < n → f₁ x ≠ x → r₁ x < r₁ (f₁ x) := by
        intro x hx hne
        by_cases hxρ : x = ρ
        · exfalso
          apply hne
          subst hxρ
          rw [hf₁, Function.update_noteq (Ne.symm hpρ)]
          exact hρfix
        · rw [hr₁, Function.update_noteq hxρ]
          by_cases hxp : x = p
          · subst hxp
            rw [hf₁, Function.update_same, Function.update_same]
            exact hMgt _ hx
          · rw [hf₁, Function.update_noteq hxp] at hne ⊢
            by_cases hfxρ : f x = ρ
            · rw [hfxρ, Function.update_same]; exact hMgt _ hx
            · rw [Function.update_noteq hfxρ]; exact hr x hx hne
      have hrkp : r p < r (f p) := hr p hp hroot
      have hreach₁ : ReachRoot f₁ (f p) ρ :=
        hreach'.update_of_rank_lt hrange hr hfpn hrkp
      have hpath₁ : pathList f₁ fuel (f p) = pathList f fuel (f p) :=
        pathList_update hrange hr fuel (f p) hfpn hrkp
      have hpnot : p ∉ pathList f fuel (f p) := by
        intro hmem
        have := (mem_pathList hrange hr fuel (f p) p hfpn hmem).1
        omega
      obtain ⟨ih1, ih2⟩ :=
        ih f₁ (Function.update sz p 2) (f p) ρ r₁ hrange₁ hr₁' hfpn hreach₁
      have hstep : findLoop ρ (fuel + 1) f sz p =
          findLoop ρ fuel f₁ (Function.update sz p 2) (f p) := by
        rw [findLoop, if_neg hroot]
      have hpl : pathList f (fuel + 1) p = p :: pathList f fuel (f p) := by
        rw [pathList, if_neg hroot]
      constructor
      · intro x
        rw [hstep, ih1 x, hpath₁, hpl]
        by_cases hxp : x = p
        · subst hxp
          rw [if_neg hpnot, if_pos (List.mem_cons_self _ _), hf₁,
            Function.update_same]
        · rw [hf₁, Function.update_noteq hxp]
          by_cases hmem : x ∈ pathList f fuel (f p)
          · rw [if_pos hmem, if_pos (List.mem_cons_of_mem _ hmem)]
          · rw [if_neg hmem,
              if_neg (fun h => by
                rcases List.mem_cons.1 h with h' | h'
                · exact hxp h'
                · exact hmem h')]
      · intro x
        rw [hstep, ih2 x, hpath₁, hpl]
        by_cases hxp : x = p
        · subst hxp
          rw [if_neg hpnot, if_pos (List.mem_cons_self _ _),
            Function.update_same]
        · rw [Function.update_noteq hxp]
          by_cases hmem : x ∈ pathList f fuel (f p)
          · rw [if_pos hmem, if_pos (List.mem_cons_of_mem _ hmem)]
          · rw [if_neg hmem,
              if_neg (fun h => by
                rcases List.mem_cons.1 h with h' | h'
                · exact hxp h'
                · exact hmem h')]

/-! ### Properties of `WQU.find` -/
theorem find_n (s : WQU) (p : Nat) : (s.find p).1.n = s.n := rfl

theorem find_cnt (s : WQU) (p : Nat) : (s.find p).1.cnt = s.cnt := rfl

theorem find_root (s : WQU) (p : Nat) : (s.find p).2 = rootOf s p := rfl

theorem find_parent_eq {s : WQU} (hs : Inv s) {p : Nat} (hp : p < s.n) :
    ∀ x, (s.find p).1.parent x =
      if x ∈ pathList s.parent s.n p then rootOf s p else s.parent x := by
  obtain ⟨r, _, hr⟩ := hs.wf.bounded
  exact (findLoop_eq s.n s.parent s.sz p (rootOf s p) r hs.range hr hp
    (rootOf_spec hs hp)).1

theorem find_sz_eq {s : WQU} (hs : Inv s) {p : Nat} (hp : p < s.n) :
    ∀ x, (s.find p).1.sz x =
      if x ∈ pathList s.parent s.n p then 2 else s.sz x := by
  obtain ⟨r, _, hr⟩ := hs.wf.bounded
  exact (findLoop_eq s.n s.parent s.sz p (rootOf s p) r hs.range hr hp
    (rootOf_spec hs hp)).2

/-- Nodes on the compression path reach the same root as `p`. -/
theorem pathList_root {s : WQU} (hs : Inv s) {p z : Nat} (hp : p < s.n)
    (hz : z ∈ pathList s.parent s.n p) :
    ReachRoot s.parent z (rootOf s p) :=
  pathList_reach s.n p z (rootOf s p) hz (rootOf_spec hs hp)

theorem pathList_ne_root {s : WQU} (hs : Inv s) {p z : Nat} (hp : p < s.n)
    (hz : z ∈ pathList s.parent s.n p) : z ≠ rootOf s p := by
  obtain ⟨r, _, hr⟩ := hs.wf.bounded
  have hzn := (mem_pathList hs.range hr s.n p z hp hz).2
  intro h
  exact hzn.2 (h ▸ rootOf_fixed hs hp)

theorem pathList_lt {s : WQU} (hs : Inv s) {p z : Nat} (hp : p < s.n)
    (hz : z ∈ pathList s.parent s.n p) : z < s.n := by
  obtain ⟨r, _, hr⟩ := hs.wf.bounded
  exact (mem_pathList hs.range hr s.n p z hp hz).2.1

/-- `find` neither creates nor destroys roots. -/
theorem find_root_iff {s : WQU} (hs : Inv s) {p : Nat} (hp : p < s.n) :
    ∀ x, ((s.find p).1.parent x = x ↔ s.parent x = x) := by
  intro x
  rw [find_parent_eq hs hp x]
  by_cases hmem : x ∈ pathList s.parent s.n p
  · rw [if_pos hmem]
    obtain ⟨r, _, hr⟩ := hs.wf.bounded
    have hnr := (mem_pathList hs.range hr s.n p x hp hmem).2.2
    have hne := pathList_ne_root hs hp hmem
    constructor
    · intro h; exact absurd h.symm hne
    · intro h; exact absurd h hnr
  · rw [if_neg hmem]

theorem find_inv {s : WQU} (hs : Inv s) {p : Nat} (hp : p < s.n) :
    Inv (s.find p).1 := by
  constructor
  · intro x hx
    rw [find_n] at hx
    rw [find_n, find_parent_eq hs hp x]
    by_cases hmem : x ∈ pathList s.parent s.n p
    · rw [if_pos hmem]; exact rootOf_lt hs hp
    · rw [if_neg hmem]; exact hs.range x hx
  · obtain ⟨r, hr⟩ := hs.wf
    set ρ := rootOf s p with hρ
    set M := ((Finset.range s.n).sup r) + 1 with hM
    have hMgt : ∀ x, x < s.n → r x < M := by
      intro x hx
      have : r x ≤ (Finset.range s.n).sup r :=
        Finset.le_sup (Finset.mem_range.2 hx)
      omega
    refine ⟨Function.update r ρ M, ?_⟩
    intro x hx hne
    rw [find_n] at hx
    rw [find_parent_eq hs hp x] at hne ⊢
    by_cases hxρ : x = ρ
    · exfalso
      apply hne
      subst hxρ
      have : ρ ∉ pathList s.parent s.n p := fun h =>
        pathList_ne_root hs hp h rfl
      rw [if_neg this]
      exact rootOf_fixed hs hp
    · rw [Function.update_noteq hxρ]
      by_cases hmem : x ∈ pathList s.parent s.n p
      · rw [if_pos hmem] at hne ⊢
        rw [Function.update_same]
        exact hMgt x hx
      · rw [if_neg hmem] at hne ⊢
        by_cases hfρ : s.parent x = ρ
        · rw [hfρ, Function.update_same]; exact hMgt x hx
        · rw [Function.update_noteq hfρ]; exact hr x hx hne

/-- Path compression does not change the partition: every element keeps
its root. -/
theorem find_rootOf {s : WQU} (hs : Inv s) {p : Nat} (hp : p < s.n) :
    ∀ x, x < s.n → rootOf (s.find p).1 x = rootOf s x := by
  intro x hx
  have hinv' := find_inv hs hp
  have key : ∀ y ρ, ReachRoot s.parent y ρ →
      ReachRoot (s.find p).1.parent y ρ := by
    intro y ρ h
    induction h with
    | root z hz =>
      refine ReachRoot.root z ?_
      rw [find_parent_eq hs hp z]
      have : z ∉ pathList s.parent s.n p := by
        intro hmem
        obtain ⟨r, _, hr⟩ := hs.wf.bounded
        exact (mem_pathList hs.range hr s.n p z hp hmem).2.2 hz
      rw [if_neg this]
      exact hz
    | step z ρ hne hrz ih =>
      by_cases hmem : z ∈ pathList s.parent s.n p
      · have hzρ : ρ = rootOf s p := by
          have h₁ : ReachRoot s.parent z (rootOf s p) :=
            pathList_root hs hp hmem
          exact (ReachRoot.step z ρ hne hrz).unique h₁
        have hnew : (s.find p).1.parent z = rootOf s p := by
          rw [find_parent_eq hs hp z, if_pos hmem]
        refine ReachRoot.step z ρ ?_ ?_
        · rw [hnew, ← hzρ]
          intro h
          exact pathList_ne_root hs hp hmem (hzρ ▸ h.symm)
        · rw [hnew, ← hzρ]
          refine ReachRoot.root ρ ?_
          rw [find_parent_eq hs hp ρ]
          have : ρ ∉ pathList s.parent s.n p := fun h =>
            pathList_ne_root hs hp h (hzρ ▸ rfl)
          rw [if_neg this, hzρ]
          exact rootOf_fixed hs hp
      · have hnew : (s.find p).1.parent z = s.parent z := by
          rw [find_parent_eq hs hp z, if_neg hmem]
        exact ReachRoot.step z ρ (hnew ▸ hne) (hnew ▸ ih)
  have h₁ : ReachRoot (s.find p).1.parent x (rootOf s x) :=
    key x (rootOf s x) (rootOf_spec hs hx)
  exact rootOf_eq_of_reach hinv' (by rw [find_n]; exact hx) h₁

/-- Roots keep their recorded size across a `find`. -/
theorem find_sz_root {s : WQU} (hs : Inv s) {p : Nat} (hp : p < s.n) :
    ∀ x, s.parent x = x → (s.find p).1.sz x = s.sz x := by
  intro x hx
  rw [find_sz_eq hs hp x]
  have : x ∉ pathList s.parent s.n p := by
    intro hmem
    obtain ⟨r, _, hr⟩ := hs.wf.bounded
    exact (mem_pathList hs.range hr s.n p x hp hmem).2.2 hx
  rw [if_neg this]

theorem find_roots {s : WQU} (hs : Inv s) {p : Nat} (hp : p < s.n) :
    roots (s.find p).1 = roots s := by
  unfold roots
  rw [find_n]
  apply Finset.ext
  intro x
  simp only [Finset.mem_filter, Finset.mem_range]
  exact and_congr_right (fun _ => find_root_iff hs hp x)

/-! ### Properties of `WQU.union` -/
/-- Attaching the root `a` under the distinct root `b` sends everything
in `a`'s component to `b` and leaves other components alone. -/
theorem link_reach {f : Nat → Nat} {a b : Nat}
    (ha : f a = a) (hb : f b = b) (hab : a ≠ b) :
    ∀ {x ρ : Nat}, ReachRoot f x ρ →
      ReachRoot (Function.update f a b) x (if ρ = a then b else ρ) := by
  intro x ρ h
  induction h with
  | root z hz =>
    by_cases hza : z = a
    · subst hza
      rw [if_pos rfl]
      refine ReachRoot.step z b ?_ ?_
      · rw [Function.update_same]; exact fun h => hab h.symm
      · rw [Function.update_same]
        exact ReachRoot.root b (by rw [Function.update_noteq (Ne.symm hab)]; exact hb)
    · rw [if_neg hza]
      exact ReachRoot.root z (by rw [Function.update_noteq hza]; exact hz)
  | step z ρ hne hr ih =>
    have hza : z ≠ a := fun h => hne (h ▸ ha)
    refine ReachRoot.step z _ ?_ ?_
    · rw [Function.update_noteq hza]; exact hne
    · rw [Function.update_noteq hza]; exact ih

theorem link_wf {n : Nat} {f : Nat → Nat} {a b : Nat}
    (hwf : WfRank n f) (hb : f b = b) (hab : a ≠ b) :
    WfRank n (Function.update f a b) := by
  obtain ⟨r, hr⟩ := hwf
  set M := ((Finset.range n).sup r) + 1 with hM
  have hMgt : ∀ x, x < n → r x < M := by
    intro x hx
    have : r x ≤ (Finset.range n).sup r := Finset.le_sup (Finset.mem_range.2 hx)
    omega
  refine ⟨Function.update r b M, ?_⟩
  intro x hx hne
  by_cases hxb : x = b
  · subst hxb
    rw [Function.update_noteq (Ne.symm hab)] at hne
    exact absurd hb hne
  · rw [Function.update_noteq hxb]
    by_cases hxa : x = a
    · subst hxa
      rw [Function.update_same]
      rw [Function.update_same]
      exact hMgt _ hx
    · rw [Function.update_noteq hxa] at hne ⊢
      by_cases hfb : f x = b
      · rw [hfb, Function.update_same]
        exact hMgt _ hx
      · rw [Function.update_noteq hfb]
        exact hr x hx hne

theorem link_root_iff {f : Nat → Nat} {a b : Nat}
    (ha : f a = a) (hab : a ≠ b) :
    ∀ x, (Function.update f a b x = x ↔ (f x = x ∧ x ≠ a)) := by
  intro x
  by_cases hxa : x = a
  · subst hxa
    rw [Function.update_same]
    constructor
    · intro h; exact absurd h.symm hab
    · intro h; exact absurd rfl h.2
  · rw [Function.update_noteq hxa]
    exact ⟨fun h => ⟨h, hxa⟩, fun h => h.1⟩

/-- Facts about the state after the two `find`s performed inside
`union`/`is_connected`. -/
theorem find2_setup {s : WQU} (hs : Inv s) {p q : Nat} (hp : p < s.n)
    (hq : q < s.n) :
    Inv ((s.find p).1.find q).1 ∧
    ((s.find p).1.find q).1.n = s.n ∧
    ((s.find p).1.find q).1.cnt = s.cnt ∧
    ((s.find p).1.find q).2 = rootOf s q ∧
    (s.find p).2 = rootOf s p ∧
    (∀ x, x < s.n → rootOf ((s.find p).1.find q).1 x = rootOf s x) ∧
    roots ((s.find p).1.find q).1 = roots s ∧
    (∀ x, s.parent x = x →
      (((s.find p).1.find q).1.parent x = x ∧
       ((s.find p).1.find q).1.sz x = s.sz x)) := by
  have hinv1 : Inv (s.find p).1 := find_inv hs hp
  have hq1 : q < (s.find p).1.n := by rw [find_n]; exact hq
  have hinv2 : Inv ((s.find p).1.find q).1 := find_inv hinv1 hq1
  refine ⟨hinv2, rfl, rfl, ?_, rfl, ?_, ?_, ?_⟩
  · rw [find_root, find_rootOf hs hp q hq]
  · intro x hx
    rw [find_rootOf hinv1 hq1 x (by rw [find_n]; exact hx),
      find_rootOf hs hp x hx]
  · rw [find_roots hinv1 hq1, find_roots hs hp]
  · intro x hx
    have hx1 : (s.find p).1.parent x = x := (find_root_iff hs hp x).2 hx
    refine ⟨(find_root_iff hinv1 hq1 x).2 hx1, ?_⟩
    rw [find_sz_root hinv1 hq1 x hx1, find_sz_root hs hp x hx]

/-- Unfolding of `union` when the two roots coincide: only the two
compressing `find`s happen. -/
theorem union_spec_eq {s : WQU} (hs : Inv s) {p q : Nat} (hp : p < s.n)
    (hq : q < s.n) (heq : rootOf s q = rootOf s p) :
    Inv (s.union p q) ∧ (s.union p q).n = s.n ∧
    (s.union p q).cnt = s.cnt ∧
    (∀ x, x < s.n → rootOf (s.union p q) x = rootOf s x) ∧
    roots (s.union p q) = roots s ∧
    (∀ x, s.parent x = x →
      ((s.union p q).parent x = x ∧ (s.union p q).sz x = s.sz x)) := by
  obtain ⟨hinv2, hn2, hcnt2, hfq, hfp, hroot2, hroots2, hpres2⟩ :=
    find2_setup hs hp hq
  have hu : s.union p q = ((s.find p).1.find q).1 := by
    unfold WQU.union
    rw [if_pos (by rw [hfq, hfp]; exact heq)]
  rw [hu]
  exact ⟨hinv2, hn2, hcnt2, hroot2, hroots2, hpres2⟩

/-- Unfolding of `union` when the two roots differ: the smaller-size
root is attached below the larger-size root (ties attach `q`'s root
below `p`'s root), the surviving root's size becomes the sum, and
`_count` drops by one. -/
theorem union_spec_ne {s : WQU} (hs : Inv s) {p q : Nat} (hp : p < s.n)
    (hq : q < s.n) (hne : rootOf s q ≠ rootOf s p) :
    Inv (s.union p q) ∧ (s.union p q).n = s.n ∧
    (s.union p q).cnt = s.cnt - 1 ∧
    ((s.sz (rootOf s p) < s.sz (rootOf s q) →
       (s.union p q).parent (rootOf s p) = rootOf s q ∧
       (s.union p q).sz (rootOf s q) = s.sz (rootOf s p) + s.sz (rootOf s q) ∧
       roots (s.union p q) = (roots s).erase (rootOf s p) ∧
       (∀ x, x < s.n → rootOf (s.union p q) x =
         if rootOf s x = rootOf s p then rootOf s q else rootOf s x) ∧
       (∀ x, s.parent x = x → x ≠ rootOf s q →
         (s.union p q).sz x = s.sz x)) ∧
     (¬ s.sz (rootOf s p) < s.sz (rootOf s q) →
       (s.union p q).parent (rootOf s q) = rootOf s p ∧
       (s.union p q).sz (rootOf s p) = s.sz (rootOf s p) + s.sz (rootOf s q) ∧
       roots (s.union p q) = (roots s).erase (rootOf s q) ∧
       (∀ x, x < s.n → rootOf (s.union p q) x =
         if rootOf s x = rootOf s q then rootOf s p else rootOf s x) ∧
       (∀ x, s.parent x = x → x ≠ rootOf s p →
         (s.union p q).sz x = s.sz x))) := by
  obtain ⟨hinv2, hn2, hcnt2, hfq, hfp, hroot2, hroots2, hpres2⟩ :=
    find2_setup hs hp hq
  set s2 := ((s.find p).1.find q).1 with hs2
  have hprroot : s.parent (rootOf s p) = rootOf s p := rootOf_fixed hs hp
  have hqrroot : s.parent (rootOf s q) = rootOf s q := rootOf_fixed hs hq
  have hprn : rootOf s p < s.n := rootOf_lt hs hp
  have hqrn : rootOf s q < s.n := rootOf_lt hs hq
  obtain ⟨hpr2, hszp2⟩ := hpres2 _ hprroot
  obtain ⟨hqr2, hszq2⟩ := hpres2 _ hqrroot
  have hszpr : s2.sz (rootOf s p) = s.sz (rootOf s p) := hszp2
  have hszqr : s2.sz (rootOf s q) = s.sz (rootOf s q) := hszq2
  have hu : s.union p q =
      (if s2.sz (rootOf s p) < s2.sz (rootOf s q) then
        ⟨s2.n, Function.update s2.parent (rootOf s p) (rootOf s q),
          Function.update s2.sz (rootOf s q)
            (s2.sz (rootOf s p) + s2.sz (rootOf s q)), s2.cnt - 1⟩
      else
        ⟨s2.n, Function.update s2.parent (rootOf s q) (rootOf s p),
          Function.update s2.sz (rootOf s p)
            (s2.sz (rootOf s p) + s2.sz (rootOf s q)), s2.cnt - 1⟩) := by
    show (if ((s.find p).1.find q).2 = (s.find p).2
        then ((s.find p).1.find q).1
        else if ((s.find p).1.find q).1.sz (s.find p).2 <
            ((s.find p).1.find q).1.sz ((s.find p).1.find q).2 then
          ⟨((s.find p).1.find q).1.n,
            Function.update ((s.find p).1.find q).1.parent (s.find p).2
              ((s.find p).1.find q).2,
            Function.update ((s.find p).1.find q).1.sz ((s.find p).1.find q).2
              (((s.find p).1.find q).1.sz (s.find p).2 +
                ((s.find p).1.find q).1.sz ((s.find p).1.find q).2),
            ((s.find p).1.find q).1.cnt - 1⟩
        else
          ⟨((s.find p).1.find q).1.n,
            Function.update ((s.find p).1.find q).1.parent
              ((s.find p).1.find q).2 (s.find p).2,
            Function.update ((s.find p).1.find q).1.sz (s.find p).2
              (((s.find p).1.find q).1.sz (s.find p).2 +
                ((s.find p).1.find q).1.sz ((s.find p).1.find q).2),
            ((s.find p).1.find q).1.cnt - 1⟩) = _
    rw [← hs2, if_neg (by rw [hfq, hfp]; exact hne), hfp, hfq]
  -- common reasoning for attaching root `a` below root `b` in `s2`
  have key : ∀ a b : Nat, s2.parent a = a → s2.parent b = b → a ≠ b →
      a < s.n → b < s.n → (a = rootOf s p ∧ b = rootOf s q ∨
        a = rootOf s q ∧ b = rootOf s p) →
      Inv (⟨s2.n, Function.update s2.parent a b, Function.update s2.sz b
          (s2.sz (rootOf s p) + s2.sz (rootOf s q)), s2.cnt - 1⟩ : WQU) ∧
      roots (⟨s2.n, Function.update s2.parent a b, Function.update s2.sz b
          (s2.sz (rootOf s p) + s2.sz (rootOf s q)), s2.cnt - 1⟩ : WQU)
        = (roots s).erase a ∧
      (∀ x, x < s.n →
        rootOf (⟨s2.n, Function.update s2.parent a b, Function.update s2.sz b
          (s2.sz (rootOf s p) + s2.sz (rootOf s q)), s2.cnt - 1⟩ : WQU) x =
        if rootOf s x = a then b else rootOf s x) := by
    intro a b hra hrb hab ha hb _
    have hinvu : Inv (⟨s2.n, Function.update s2.parent a b,
        Function.update s2.sz b
          (s2.sz (rootOf s p) + s2.sz (rootOf s q)), s2.cnt - 1⟩ : WQU) := by
      constructor
      · intro x hx
        show Function.update s2.parent a b x < s2.n
        by_cases hxa : x = a
        · subst hxa
          rw [Function.update_same]
          show b < s2.n
          rw [hn2]
          exact hb
        · rw [Function.update_noteq hxa]
          exact hinv2.range x hx
      · exact link_wf hinv2.wf hrb hab
    have hfixiff : ∀ x, x < s.n → (s2.parent x = x ↔ s.parent x = x) := by
      intro x hx
      have h := Finset.ext_iff.1 hroots2 x
      simp only [roots, Finset.mem_filter, Finset.mem_range] at h
      constructor
      · intro hf
        exact (h.1 ⟨by rw [hn2]; exact hx, hf⟩).2
      · intro hf
        exact (h.2 ⟨hx, hf⟩).2
    refine ⟨hinvu, ?_, ?_⟩
    · apply Finset.ext
      intro x
      rw [Finset.mem_erase]
      simp only [roots, Finset.mem_filter, Finset.mem_range]
      constructor
      · rintro ⟨hx, hfix⟩
        have hx' : x < s.n := by rw [← hn2]; exact hx
        rw [link_root_iff hra hab x] at hfix
        exact ⟨hfix.2, hx', (hfixiff x hx').1 hfix.1⟩
      · rintro ⟨hxa, hx, hfix⟩
        refine ⟨by rw [hn2]; exact hx, ?_⟩
        rw [link_root_iff hra hab x]
        exact ⟨(hfixiff x hx).2 hfix, hxa⟩
    · intro x hx
      have hreach : ReachRoot s2.parent x (rootOf s2 x) :=
        rootOf_spec hinv2 (by rw [hn2]; exact hx)
      have hlink := link_reach hra hrb hab hreach
      have := rootOf_eq_of_reach hinvu (x := x) (by
        show x < s2.n
        rw [hn2]; exact hx) hlink
      rw [show rootOf (⟨s2.n, Function.update s2.parent a b,
          Function.update s2.sz b
            (s2.sz (rootOf s p) + s2.sz (rootOf s q)), s2.cnt - 1⟩ : WQU) x =
          rootAux (Function.update s2.parent a b) s2.n x from rfl] at this ⊢
      rw [this, hroot2 x hx]
  constructor
  · -- Inv
    rw [hu]
    by_cases hsz : s2.sz (rootOf s p) < s2.sz (rootOf s q)
    · rw [if_pos hsz]
      exact (key _ _ hpr2 hqr2 (fun h => hne h.symm) hprn hqrn
        (Or.inl ⟨rfl, rfl⟩)).1
    · rw [if_neg hsz]
      exact (key _ _ hqr2 hpr2 hne hqrn hprn (Or.inr ⟨rfl, rfl⟩)).1
  refine ⟨?_, ?_, ?_, ?_⟩
  · -- n
    rw [hu]
    by_cases hsz : s2.sz (rootOf s p) < s2.sz (rootOf s q) <;>
      simp only [if_pos, if_neg, hsz, if_true, if_false] <;> exact hn2
  · -- cnt
    rw [hu]
    by_cases hsz : s2.sz (rootOf s p) < s2.sz (rootOf s q) <;>
      simp only [hsz, if_true, if_false] <;> simp only [hcnt2]
  · -- smaller p-root case
    intro hsz
    have hsz2 : s2.sz (rootOf s p) < s2.sz (rootOf s q) := by
      rw [hszpr, hszqr]; exact hsz
    obtain ⟨_, hroots, hrootOf⟩ := key _ _ hpr2 hqr2
      (fun h => hne h.symm) hprn hqrn (Or.inl ⟨rfl, rfl⟩)
    rw [hu, if_pos hsz2]
    refine ⟨?_, ?_, hroots, hrootOf, ?_⟩
    · show Function.update s2.parent (rootOf s p) (rootOf s q) (rootOf s p)
        = rootOf s q
      rw [Function.update_same]
    · show Function.update s2.sz (rootOf s q)
        (s2.sz (rootOf s p) + s2.sz (rootOf s q)) (rootOf s q)
        = s.sz (rootOf s p) + s.sz (rootOf s q)
      rw [Function.update_same, hszpr, hszqr]
    · intro x hx hxb
      show Function.update s2.sz (rootOf s q)
        (s2.sz (rootOf s p) + s2.sz (rootOf s q)) x = s.sz x
      rw [Function.update_noteq hxb]
      exact (hpres2 x hx).2
  · -- larger-or-equal p-root case
    intro hsz
    have hsz2 : ¬ s2.sz (rootOf s p) < s2.sz (rootOf s q) := by
      rw [hszpr, hszqr]; exact hsz
    obtain ⟨_, hroots, hrootOf⟩ := key _ _ hqr2 hpr2 hne hqrn hprn
      (Or.inr ⟨rfl, rfl⟩)
    rw [hu, if_neg hsz2]
    refine ⟨?_, ?_, hroots, hrootOf, ?_⟩
    · show Function.update s2.parent (rootOf s q) (rootOf s p) (rootOf s q)
        = rootOf s p
      rw [Function.update_same]
    · show Function.update s2.sz (rootOf s p)
        (s2.sz (rootOf s p) + s2.sz (rootOf s q)) (rootOf s p)
        = s.sz (rootOf s p) + s.sz (rootOf s q)
      rw [Function.update_same, hszpr, hszqr]
    · intro x hx hxb
      show Function.update s2.sz (rootOf s p)
        (s2.sz (rootOf s p) + s2.sz (rootOf s q)) x = s.sz x
      rw [Function.update_noteq hxb]
      exact (hpres2 x hx).2

/-! ### The freshly initialised state, and `is_connected` -/
theorem init_inv (n : Nat) : Inv (WQU.init n) := by
  constructor
  · intro x hx; exact hx
  · exact ⟨fun _ => 0, fun x _ hne => absurd rfl hne⟩

theorem init_rootOf (n : Nat) : ∀ x, rootOf (WQU.init n) x = x := by
  intro x
  show rootAux (fun i => i) n x = x
  cases n with
  | zero => rfl
  | succ m => rw [rootAux, if_pos rfl]

theorem init_roots (n : Nat) : roots (WQU.init n) = Finset.range n := by
  apply Finset.ext
  intro x
  simp [roots, WQU.init, WQU.initI]

theorem init_comp (n : Nat) {x : Nat} (hx : x < n) :
    comp (WQU.init n) x = {x} := by
  apply Finset.ext
  intro y
  simp only [comp, Finset.mem_filter, Finset.mem_range, Finset.mem_singleton,
    init_rootOf]
  constructor
  · rintro ⟨_, rfl⟩; rfl
  · rintro rfl
    refine ⟨?_, rfl⟩
    show y < (WQU.init n).n
    simpa [WQU.init, WQU.initI] using hx

theorem is_connected_fst (s : WQU) (p q : Nat) :
    (s.is_connected p q).1 = ((s.find p).1.find q).1 := rfl

theorem is_connected_snd {s : WQU} (hs : Inv s) {p q : Nat} (hp : p < s.n)
    (hq : q < s.n) :
    ((s.is_connected p q).2 = true ↔ rootOf s p = rootOf s q) := by
  obtain ⟨_, _, _, hfq, hfp, _, _, _⟩ := find2_setup hs hp hq
  show ((s.find p).2 == ((s.find p).1.find q).2) = true ↔ _
  rw [hfp, hfq, beq_iff_eq]

/-! ### The equivalence closure of a list of union calls -/
theorem eqvGen_nil {a b : Nat} : Relation.EqvGen (opRel ([] : List (Nat × Nat))) a b ↔ a = b := by
  constructor
  · intro h
    induction h with
    | rel x y hxy => simp [opRel] at hxy
    | refl x => rfl
    | symm x y _ ih => exact ih.symm
    | trans x y z _ _ ih₁ ih₂ => exact ih₁.trans ih₂
  · rintro rfl
    exact Relation.EqvGen.refl a

theorem eqvGen_sub {ops ops' : List (Nat × Nat)} (h : ∀ pq ∈ ops, pq ∈ ops')
    {a b : Nat} (hg : Relation.EqvGen (opRel ops) a b) :
    Relation.EqvGen (opRel ops') a b := by
  induction hg with
  | rel x y hxy => exact Relation.EqvGen.rel x y (h _ hxy)
  | refl x => exact Relation.EqvGen.refl x
  | symm x y _ ih => exact Relation.EqvGen.symm x y ih
  | trans x y z _ _ ih₁ ih₂ => exact Relation.EqvGen.trans x y z ih₁ ih₂

/-- Effect of appending one more union call on the equivalence closure. -/
theorem eqvGen_append {ops : List (Nat × Nat)} {p q : Nat} :
    ∀ {a b : Nat}, Relation.EqvGen (opRel (ops ++ [(p, q)])) a b ↔
      (Relation.EqvGen (opRel ops) a b ∨
       (Relation.EqvGen (opRel ops) a p ∧ Relation.EqvGen (opRel ops) q b) ∨
       (Relation.EqvGen (opRel ops) a q ∧ Relation.EqvGen (opRel ops) p b)) := by
  have hpq : opRel (ops ++ [(p, q)]) p q := by
    simp [opRel]
  intro a b
  constructor
  · intro h
    set R : Nat → Nat → Prop := fun a b =>
      (Relation.EqvGen (opRel ops) a b ∨
       (Relation.EqvGen (opRel ops) a p ∧ Relation.EqvGen (opRel ops) q b) ∨
       (Relation.EqvGen (opRel ops) a q ∧ Relation.EqvGen (opRel ops) p b))
      with hR
    have hEquiv : Equivalence R := by
      constructor
      · intro x
        exact Or.inl (Relation.EqvGen.refl x)
      · intro x y hxy
        rcases hxy with h' | ⟨h₁, h₂⟩ | ⟨h₁, h₂⟩
        · exact Or.inl (Relation.EqvGen.symm _ _ h')
        · exact Or.inr (Or.inr ⟨Relation.EqvGen.symm _ _ h₂,
            Relation.EqvGen.symm _ _ h₁⟩)
        · exact Or.inr (Or.inl ⟨Relation.EqvGen.symm _ _ h₂,
            Relation.EqvGen.symm _ _ h₁⟩)
      · intro x y z hxy hyz
        rcases hxy with h' | ⟨h₁, h₂⟩ | ⟨h₁, h₂⟩ <;>
          rcases hyz with h'' | ⟨h₃, h₄⟩ | ⟨h₃, h₄⟩
        · exact Or.inl (Relation.EqvGen.trans _ _ _ h' h'')
        · exact Or.inr (Or.inl ⟨Relation.EqvGen.trans _ _ _ h' h₃, h₄⟩)
        · exact Or.inr (Or.inr ⟨Relation.EqvGen.trans _ _ _ h' h₃, h₄⟩)
        · exact Or.inr (Or.inl ⟨h₁, Relation.EqvGen.trans _ _ _ h₂ h''⟩)
        · exact Or.inl (Relation.EqvGen.trans _ _ _ h₁
            (Relation.EqvGen.trans _ _ _
              (Relation.EqvGen.symm _ _ (Relation.EqvGen.trans _ _ _ h₂ h₃)) h₄))
        · exact Or.inl (Relation.EqvGen.trans _ _ _ h₁ h₄)
        · exact Or.inr (Or.inr ⟨h₁, Relation.EqvGen.trans _ _ _ h₂ h''⟩)
        · exact Or.inl (Relation.EqvGen.trans _ _ _ h₁ h₄)
        · exact Or.inl (Relation.EqvGen.trans _ _ _ h₁
            (Relation.EqvGen.trans _ _ _
              (Relation.EqvGen.symm _ _ (Relation.EqvGen.trans _ _ _ h₂ h₃)) h₄))
    have hle : ∀ x y, opRel (ops ++ [(p, q)]) x y → R x y := by
      intro x y hxy
      rcases List.mem_append.1 hxy with h' | h'
      · exact Or.inl (Relation.EqvGen.rel x y h')
      · rcases List.mem_singleton.1 h' with h''
        have hx : x = p := by
          have := congrArg Prod.fst h''
          simpa using this
        have hy : y = q := by
          have := congrArg Prod.snd h''
          simpa using this
        rw [hx, hy]
        exact Or.inr (Or.inl ⟨Relation.EqvGen.refl p, Relation.EqvGen.refl q⟩)
    have := Relation.EqvGen.mono hle h
    rwa [hEquiv.eqvGen_iff] at this
  · intro h
    have hsub : ∀ pq ∈ ops, pq ∈ ops ++ [(p, q)] := by
      intro pq hpq'
      exact List.mem_append_left _ hpq'
    have hstep : Relation.EqvGen (opRel (ops ++ [(p, q)])) p q :=
      Relation.EqvGen.rel _ _ hpq
    rcases h with h' | ⟨h₁, h₂⟩ | ⟨h₁, h₂⟩
    · exact eqvGen_sub hsub h'
    · exact Relation.EqvGen.trans _ _ _ (eqvGen_sub hsub h₁)
        (Relation.EqvGen.trans _ _ _ hstep (eqvGen_sub hsub h₂))
    · exact Relation.EqvGen.trans _ _ _ (eqvGen_sub hsub h₁)
        (Relation.EqvGen.trans _ _ _
          (Relation.EqvGen.symm _ _ hstep) (eqvGen_sub hsub h₂))

/-! ### The main history invariant of the disjoint set -/
theorem mem_roots {s : WQU} {x : Nat} :
    x ∈ roots s ↔ x < s.n ∧ s.parent x = x := by
  simp [roots]

theorem mem_comp {s : WQU} {ρ y : Nat} :
    y ∈ comp s ρ ↔ y < s.n ∧ rootOf s y = ρ := by
  simp [comp]

theorem tracks_init (n : Nat) : Tracks n [] (WQU.init n) := by
  refine ⟨by simp [WQU.init, WQU.initI], init_inv n, ?_, ?_, ?_⟩
  · intro a b _ _
    rw [init_rootOf n a, init_rootOf n b, eqvGen_nil]
  · rw [init_roots, Finset.card_range]
    rfl
  · intro x hx _
    rw [init_comp n (by

      simpa [WQU.init, WQU.initI] using hx), Finset.card_singleton]
    rfl

/-- Swapping the order of the two endpoints of the appended union call
does not change the closure. -/
theorem eqvGen_append_comm {ops : List (Nat × Nat)} {p q a b : Nat} :
    Relation.EqvGen (opRel (ops ++ [(p, q)])) a b ↔
      Relation.EqvGen (opRel (ops ++ [(q, p)])) a b := by
  rw [eqvGen_append, eqvGen_append]
  tauto

/-- Connectivity after attaching component `rootOf s p` onto component
`rootOf s q` matches the closure of the extended history. -/
theorem conn_link {n : Nat} {ops : List (Nat × Nat)} {s : WQU}
    (ht : Tracks n ops s) {p q : Nat} (hp : p < n) (hq : q < n)
    {u : WQU} (hform : ∀ x, x < n → rootOf u x =
      if rootOf s x = rootOf s p then rootOf s q else rootOf s x) :
    ∀ i j, i < n → j < n → (rootOf u i = rootOf u j ↔
      Relation.EqvGen (opRel (ops ++ [(p, q)])) i j) := by
  intro i j hi hj
  rw [eqvGen_append, hform i hi, hform j hj]
  by_cases hA : rootOf s i = rootOf s p <;>
    by_cases hB : rootOf s j = rootOf s p
  · rw [if_pos hA, if_pos hB]
    constructor
    · intro _
      exact Or.inl ((ht.conn i j hi hj).1 (hA.trans hB.symm))
    · intro _; rfl
  · rw [if_pos hA, if_neg hB]
    constructor
    · intro h
      refine Or.inr (Or.inl ⟨(ht.conn i p hi hp).1 hA, ?_⟩)
      exact (ht.conn q j hq hj).1 h
    · intro h
      rcases h with h' | ⟨h₁, h₂⟩ | ⟨h₁, h₂⟩
      · exact absurd (((ht.conn i j hi hj).2 h') ▸ hA : rootOf s j = rootOf s p).symm
          (fun hh => hB hh.symm)
      · exact (ht.conn q j hq hj).2 h₂
      · exact absurd ((ht.conn p j hp hj).2 h₂).symm hB
  · rw [if_neg hA, if_pos hB]
    constructor
    · intro h
      refine Or.inr (Or.inr ⟨?_, (ht.conn p j hp hj).1 hB.symm⟩)
      exact (ht.conn i q hi hq).1 h
    · intro h
      rcases h with h' | ⟨h₁, h₂⟩ | ⟨h₁, h₂⟩
      · exact absurd ((ht.conn i j hi hj).2 h' ▸ hB : rootOf s i = rootOf s p) hA
      · exact absurd ((ht.conn i p hi hp).2 h₁) hA
      · exact (ht.conn i q hi hq).2 h₁
  · rw [if_neg hA, if_neg hB]
    constructor
    · intro h
      exact Or.inl ((ht.conn i j hi hj).1 h)
    · intro h
      rcases h with h' | ⟨h₁, h₂⟩ | ⟨h₁, h₂⟩
      · exact (ht.conn i j hi hj).2 h'
      · exact absurd ((ht.conn i p hi hp).2 h₁) hA
      · exact absurd (((ht.conn p j hp hj).2 h₂).symm) hB

/-- The merged state after a successful union tracks the extended
history. -/
theorem tracks_link {n : Nat} {ops : List (Nat × Nat)} {s : WQU}
    (ht : Tracks n ops s) {p q : Nat} (hp : p < n) (hq : q < n)
    {u : WQU} (hun : u.n = n) (hinvu : Inv u) (hcntu : u.cnt = s.cnt - 1)
    {a b : Nat} (hab : a ≠ b)
    (haroots : a ∈ roots s)
    (habpq : a = rootOf s p ∧ b = rootOf s q ∨
             a = rootOf s q ∧ b = rootOf s p)
    (hroots : roots u = (roots s).erase a)
    (hform : ∀ x, x < n → rootOf u x =
      if rootOf s x = a then b else rootOf s x)
    (hszb : u.sz b = s.sz (rootOf s p) + s.sz (rootOf s q))
    (hszo : ∀ x, s.parent x = x → x ≠ b → u.sz x = s.sz x) :
    Tracks n (ops ++ [(p, q)]) u := by
  have hcompu : ∀ x, comp u x = (Finset.range n).filter (fun y => rootOf u y = x) := by
    intro x
    unfold comp
    rw [hun]
  have hcomps : ∀ x, comp s x = (Finset.range n).filter (fun y => rootOf s y = x) := by
    intro x
    unfold comp
    rw [ht.hn]
  have hcomp_b : comp u b = comp s a ∪ comp s b := by
    rw [hcompu, hcomps, hcomps, ← Finset.filter_or]
    apply Finset.filter_congr
    intro y hy
    rw [Finset.mem_range] at hy
    rw [hform y hy]
    by_cases hya : rootOf s y = a
    · simp [hya, if_pos]
    · simp [hya, if_neg]
  have hcomp_o : ∀ x, x ≠ a → x ≠ b → comp u x = comp s x := by
    intro x hxa hxb
    rw [hcompu, hcomps]
    apply Finset.filter_congr
    intro y hy
    rw [Finset.mem_range] at hy
    rw [hform y hy]
    by_cases hya : rootOf s y = a
    · simp only [hya, if_pos, eq_iff_iff]
      constructor
      · intro h; exact absurd h.symm hxb
      · intro h; exact absurd (hya ▸ h : a = x).symm hxa
    · simp [hya]
  refine ⟨hun, hinvu, ?_, ?_, ?_⟩
  · -- connectivity matches the extended history
    rcases habpq with ⟨ha', hb'⟩ | ⟨ha', hb'⟩
    · subst ha'; subst hb'
      exact conn_link ht hp hq hform
    · subst ha'; subst hb'
      intro i j hi hj
      rw [eqvGen_append_comm (p := p) (q := q)]
      exact conn_link ht hq hp hform i j hi hj
  · -- count equals the number of roots
    have hcard : (roots u).card = (roots s).card - 1 := by
      rw [hroots, Finset.card_erase_of_mem haroots]
    have hpos : 1 ≤ (roots s).card := Finset.card_pos.2 ⟨a, haroots⟩
    rw [hcntu, ht.cnt, hcard]
    omega
  · -- root sizes are exact component sizes
    intro x hx hfix
    have hxroots : x ∈ roots u := mem_roots.2 ⟨by rw [hun]; exact hx, hfix⟩
    rw [hroots, Finset.mem_erase] at hxroots
    obtain ⟨hxa, hxs⟩ := hxroots
    have hxfix : s.parent x = x := (mem_roots.1 hxs).2
    by_cases hxb : x = b
    · subst hxb
      have hprroot : s.parent (rootOf s p) = rootOf s p := by
        have := rootOf_fixed ht.inv (x := p) (by rw [ht.hn]; exact hp)
        exact this
      have hqrroot : s.parent (rootOf s q) = rootOf s q := by
        have := rootOf_fixed ht.inv (x := q) (by rw [ht.hn]; exact hq)
        exact this
      have hprn : rootOf s p < n := by
        have := rootOf_lt ht.inv (x := p) (by rw [ht.hn]; exact hp)
        rw [ht.hn] at this
        exact this
      have hqrn : rootOf s q < n := by
        have := rootOf_lt ht.inv (x := q) (by rw [ht.hn]; exact hq)
        rw [ht.hn] at this
        exact this
      have hdisj : Disjoint (comp s a) (comp s x) := by
        rw [Finset.disjoint_left]
        intro y hy hy'
        exact hab ((mem_comp.1 hy).2.symm.trans (mem_comp.1 hy').2)
      have hcards : (comp u x).card = (comp s a).card + (comp s x).card := by
        rw [hcomp_b, Finset.card_union_of_disjoint hdisj]
      rw [hszb, hcards]
      have h₁ : s.sz (rootOf s p) = (comp s (rootOf s p)).card :=
        ht.szx _ hprn hprroot
      have h₂ : s.sz (rootOf s q) = (comp s (rootOf s q)).card :=
        ht.szx _ hqrn hqrroot
      rcases habpq with ⟨ha', hb'⟩ | ⟨ha', hb'⟩
      · rw [h₁, h₂, ← ha', ← hb']
      · rw [h₁, h₂, ← ha', ← hb']
        omega
    · rw [hszo x hxfix hxb, hcomp_o x hxa hxb]
      exact ht.szx x hx hxfix

/-- `union` extends the tracked history by one call. -/
theorem tracks_union {n : Nat} {ops : List (Nat × Nat)} {s : WQU}
    (ht : Tracks n ops s) {p q : Nat} (hp : p < n) (hq : q < n) :
    Tracks n (ops ++ [(p, q)]) (s.union p q) := by
  have hp' : p < s.n := by rw [ht.hn]; exact hp
  have hq' : q < s.n := by rw [ht.hn]; exact hq
  by_cases heq : rootOf s q = rootOf s p
  · obtain ⟨hinvu, hnu, hcntu, hrootu, hrootsu, hpresu⟩ :=
      union_spec_eq ht.inv hp' hq' heq
    have hpq : Relation.EqvGen (opRel ops) p q :=
      (ht.conn p q hp hq).1 heq.symm
    refine ⟨by rw [hnu, ht.hn], hinvu, ?_, ?_, ?_⟩
    · intro i j hi hj
      rw [hrootu i (by rw [ht.hn]; exact hi), hrootu j (by rw [ht.hn]; exact hj),
        ht.conn i j hi hj, eqvGen_append]
      constructor
      · intro h
        exact Or.inl h
      · intro h
        rcases h with h' | ⟨h₁, h₂⟩ | ⟨h₁, h₂⟩
        · exact h'
        · exact Relation.EqvGen.trans _ _ _ h₁
            (Relation.EqvGen.trans _ _ _ hpq h₂)
        · exact Relation.EqvGen.trans _ _ _ h₁
            (Relation.EqvGen.trans _ _ _ (Relation.EqvGen.symm _ _ hpq) h₂)
    · rw [hcntu, hrootsu, ht.cnt]
    · intro x hx hfix
      have hfix' : s.parent x = x := by
        have hmem : x ∈ roots (s.union p q) :=
          mem_roots.2 ⟨by rw [hnu, ht.hn]; exact hx, hfix⟩
        rw [hrootsu] at hmem
        exact (mem_roots.1 hmem).2
      rw [(hpresu x hfix').2, ht.szx x hx hfix']
      have hceq : comp (s.union p q) x = comp s x := by
        unfold comp
        rw [hnu]
        apply Finset.filter_congr
        intro y hy
        rw [Finset.mem_range] at hy
        rw [hrootu y hy]
      rw [hceq]
  · obtain ⟨hinvu, hnu, hcntu, hcase1, hcase2⟩ :=
      union_spec_ne ht.inv hp' hq' heq
    have hprroot : s.parent (rootOf s p) = rootOf s p := rootOf_fixed ht.inv hp'
    have hqrroot : s.parent (rootOf s q) = rootOf s q := rootOf_fixed ht.inv hq'
    have hprn : rootOf s p < n := by
      have := rootOf_lt ht.inv hp'
      rw [ht.hn] at this
      exact this
    have hqrn : rootOf s q < n := by
      have := rootOf_lt ht.inv hq'
      rw [ht.hn] at this
      exact this
    have hpr_mem : rootOf s p ∈ roots s :=
      mem_roots.2 ⟨by rw [ht.hn]; exact hprn, hprroot⟩
    have hqr_mem : rootOf s q ∈ roots s :=
      mem_roots.2 ⟨by rw [ht.hn]; exact hqrn, hqrroot⟩
    by_cases hsz : s.sz (rootOf s p) < s.sz (rootOf s q)
    · obtain ⟨hpar, hszb, hroots, hform, hszo⟩ := hcase1 hsz
      refine tracks_link ht hp hq (by rw [hnu, ht.hn]) hinvu hcntu
        (fun h => heq (h.symm)) hpr_mem (Or.inl ⟨rfl, rfl⟩) hroots
        (fun x hx => hform x (by rw [ht.hn]; exact hx)) hszb ?_
      intro x hfx hxb
      exact hszo x hfx hxb
    · obtain ⟨hpar, hszb, hroots, hform, hszo⟩ := hcase2 hsz
      refine tracks_link ht hp hq (by rw [hnu, ht.hn]) hinvu hcntu
        heq hqr_mem (Or.inr ⟨rfl, rfl⟩) hroots
        (fun x hx => hform x (by rw [ht.hn]; exact hx)) hszb ?_
      intro x hfx hxb
      exact hszo x hfx hxb

/-- The state reached by any in-range sequence of unions tracks that
sequence. -/
theorem tracks_exec (n : Nat) (ops : List (Nat × Nat))
    (hops : OpsInRange n ops) : Tracks n ops (execUnions n ops) := by
  induction ops using List.reverseRecOn with
  | nil => exact tracks_init n
  | append_singleton l pq ih =>
    have hl : OpsInRange n l := fun x hx => hops x (List.mem_append_left _ hx)
    have hpq : pq.1 < n ∧ pq.2 < n := hops pq (by simp)
    have hexec : execUnions n (l ++ [pq]) = (execUnions n l).union pq.1 pq.2 := by
      unfold execUnions
      rw [List.foldl_append]
      rfl
    rw [hexec]
    have := tracks_union (ih hl) hpq.1 hpq.2
    simpa using this

theorem find_rootParent_pres {t : WQU} (ht : Inv t) {i : Nat} (hi : i < t.n)
    {j : Nat} (hj : RootParent t j) : RootParent (t.find i).1 j := by
  unfold RootParent at hj ⊢
  by_cases hmem : j ∈ pathList t.parent t.n i
  · have h1 : (t.find i).1.parent j = rootOf t i := by
      rw [find_parent_eq ht hi j, if_pos hmem]
    have hρ : t.parent (rootOf t i) = rootOf t i := rootOf_fixed ht hi
    have h2 : (t.find i).1.parent (rootOf t i) = rootOf t i :=
      (find_root_iff ht hi _).2 hρ
    rw [h1, h2]
  · have h1 : (t.find i).1.parent j = t.parent j := by
      rw [find_parent_eq ht hi j, if_neg hmem]
    have h2 : (t.find i).1.parent (t.parent j) = t.parent j :=
      (find_root_iff ht hi _).2 hj
    rw [h1, h2]

theorem find_rootParent_self {t : WQU} (ht : Inv t) {i : Nat} (hi : i < t.n) :
    RootParent (t.find i).1 i := by
  unfold RootParent
  by_cases hroot : t.parent i = i
  · have h1 : (t.find i).1.parent i = i := (find_root_iff ht hi i).2 hroot
    rw [h1, h1]
  · have hmem : i ∈ pathList t.parent t.n i := by
      obtain ⟨m, hm⟩ : ∃ m, t.n = m + 1 := ⟨t.n - 1, by omega⟩
      rw [hm, pathList, if_neg hroot]
      exact List.mem_cons_self _ _
    have h1 : (t.find i).1.parent i = rootOf t i := by
      rw [find_parent_eq ht hi i, if_pos hmem]
    have hρ : t.parent (rootOf t i) = rootOf t i := rootOf_fixed ht hi
    have h2 : (t.find i).1.parent (rootOf t i) = rootOf t i :=
      (find_root_iff ht hi _).2 hρ
    rw [h1, h2]

/-- Folding `find` over a list of elements flattens all of them. -/
theorem fold_find_spec :
    ∀ (l : List Nat) (s : WQU), Inv s → (∀ i ∈ l, i < s.n) →
      Inv (l.foldl (fun t i => (t.find i).1) s) ∧
      (l.foldl (fun t i => (t.find i).1) s).n = s.n ∧
      (∀ j, RootParent s j →
        RootParent (l.foldl (fun t i => (t.find i).1) s) j) ∧
      (∀ j ∈ l, RootParent (l.foldl (fun t i => (t.find i).1) s) j) := by
  intro l
  induction l with
  | nil =>
    intro s hs _
    exact ⟨hs, rfl, fun j hj => hj, fun j hj => absurd hj (List.not_mem_nil j)⟩
  | cons i l ih =>
    intro s hs hl
    have hi : i < s.n := hl i (List.mem_cons_self _ _)
    have hs' : Inv (s.find i).1 := find_inv hs hi
    have hl' : ∀ j ∈ l, j < (s.find i).1.n := by
      intro j hj
      rw [find_n]
      exact hl j (List.mem_cons_of_mem _ hj)
    obtain ⟨h1, h2, h3, h4⟩ := ih (s.find i).1 hs' hl'
    rw [List.foldl_cons]
    refine ⟨h1, by rw [h2, find_n], ?_, ?_⟩
    · intro j hj
      exact h3 j (find_rootParent_pres hs hi hj)
    · intro j hj
      rcases List.mem_cons.1 hj with rfl | hj'
      · exact h3 j (find_rootParent_self hs hi)
      · exact h4 j hj'

theorem findLoopE_eq (r : Nat) :
    ∀ (fuel : Nat) (f sz : Nat → Nat) (p : Nat),
      findLoopE r fuel f p = (findLoop r fuel f sz p).1 := by
  intro fuel
  induction fuel with
  | zero => intro f sz p; rfl
  | succ fuel ih =>
    intro f sz p
    rw [findLoopE, findLoop]
    by_cases h : f p = p
    · rw [if_pos h, if_pos h]
    · rw [if_neg h, if_neg h]
      exact ih _ _ _

theorem findE_bisim {s t : WQU} (hs : Inv s) (ha : SzAgree s t)
    {p : Nat} (hp : p < s.n) :
    SzAgree (s.find p).1 (findE t p).1 ∧ (findE t p).2 = (s.find p).2 := by
  have hr : rootAux t.parent t.n p = rootAux s.parent s.n p := by
    rw [ha.hparent, ha.hn]
  constructor
  · refine ⟨?_, ?_, ?_, ?_⟩
    · show t.n = s.n
      exact ha.hn
    · show findLoopE (rootAux t.parent t.n p) t.n t.parent p =
        (s.find p).1.parent
      rw [findLoopE_eq _ _ _ s.sz, ha.hparent, ha.hn]
      rfl
    · show t.cnt = s.cnt
      exact ha.hcnt
    · intro x hx
      have hx' : s.parent x = x := by
        rw [find_parent_eq hs hp x] at hx
        by_cases hmem : x ∈ pathList s.parent s.n p
        · rw [if_pos hmem] at hx
          exact absurd (hx ▸ rootOf_fixed hs hp :
            s.parent x = x) (by
              obtain ⟨r, _, hrk⟩ := hs.wf.bounded
              intro hfix
              exact (mem_pathList hs.range hrk s.n p x hp hmem).2.2 hfix)
        · rw [if_neg hmem] at hx
          exact hx
      show t.sz x = (s.find p).1.sz x
      rw [find_sz_root hs hp x hx']
      exact ha.hszr x hx'
  · show rootAux t.parent t.n p = (s.find p).2
    rw [hr]
    rfl

theorem union_unfold (s : WQU) (p q : Nat) :
    s.union p q =
      (if ((s.find p).1.find q).2 = (s.find p).2 then ((s.find p).1.find q).1
       else if ((s.find p).1.find q).1.sz (s.find p).2 <
           ((s.find p).1.find q).1.sz ((s.find p).1.find q).2 then
         ⟨((s.find p).1.find q).1.n,
          Function.update ((s.find p).1.find q).1.parent (s.find p).2
            ((s.find p).1.find q).2,
          Function.update ((s.find p).1.find q).1.sz ((s.find p).1.find q).2
            (((s.find p).1.find q).1.sz (s.find p).2 +
              ((s.find p).1.find q).1.sz ((s.find p).1.find q).2),
          ((s.find p).1.find q).1.cnt - 1⟩
       else
         ⟨((s.find p).1.find q).1.n,
          Function.update ((s.find p).1.find q).1.parent
            ((s.find p).1.find q).2 (s.find p).2,
          Function.update ((s.find p).1.find q).1.sz (s.find p).2
            (((s.find p).1.find q).1.sz (s.find p).2 +
              ((s.find p).1.find q).1.sz ((s.find p).1.find q).2),
          ((s.find p).1.find q).1.cnt - 1⟩) := rfl

theorem unionE_unfold (t : WQU) (p q : Nat) :
    unionE t p q =
      (if (findE (findE t p).1 q).2 = (findE t p).2 then (findE (findE t p).1 q).1
       else if (findE (findE t p).1 q).1.sz (findE t p).2 <
           (findE (findE t p).1 q).1.sz (findE (findE t p).1 q).2 then
         ⟨(findE (findE t p).1 q).1.n,
          Function.update (findE (findE t p).1 q).1.parent (findE t p).2
            (findE (findE t p).1 q).2,
          Function.update (findE (findE t p).1 q).1.sz (findE (findE t p).1 q).2
            ((findE (findE t p).1 q).1.sz (findE t p).2 +
              (findE (findE t p).1 q).1.sz (findE (findE t p).1 q).2),
          (findE (findE t p).1 q).1.cnt - 1⟩
       else
         ⟨(findE (findE t p).1 q).1.n,
          Function.update (findE (findE t p).1 q).1.parent
            (findE (findE t p).1 q).2 (findE t p).2,
          Function.update (findE (findE t p).1 q).1.sz (findE t p).2
            ((findE (findE t p).1 q).1.sz (findE t p).2 +
              (findE (findE t p).1 q).1.sz (findE (findE t p).1 q).2),
          (findE (findE t p).1 q).1.cnt - 1⟩) := rfl

theorem unionE_bisim {s t : WQU} (hs : Inv s) (ha : SzAgree s t)
    {p q : Nat} (hp : p < s.n) (hq : q < s.n) :
    SzAgree (s.union p q) (unionE t p q) := by
  obtain ⟨ha1, hr1⟩ := findE_bisim hs ha hp
  have hs1 : Inv (s.find p).1 := find_inv hs hp
  have hq1 : q < (s.find p).1.n := by rw [find_n]; exact hq
  obtain ⟨ha2, hr2⟩ := findE_bisim hs1 ha1 hq1
  obtain ⟨_, _, _, hfq, hfp, _, _, hpres2⟩ := find2_setup hs hp hq
  have hprroot : s.parent (rootOf s p) = rootOf s p := rootOf_fixed hs hp
  have hqrroot : s.parent (rootOf s q) = rootOf s q := rootOf_fixed hs hq
  obtain ⟨hpr2, hszp2⟩ := hpres2 _ hprroot
  obtain ⟨hqr2, hszq2⟩ := hpres2 _ hqrroot
  have hpr2' : ((s.find p).1.find q).1.parent ((s.find p).2) = (s.find p).2 := by
    rw [hfp]; exact hpr2
  have hqr2' : ((s.find p).1.find q).1.parent (((s.find p).1.find q).2)
      = ((s.find p).1.find q).2 := by
    rw [hfq]; exact hqr2
  have hc1 : (findE (findE t p).1 q).1.sz ((findE t p).2) =
      ((s.find p).1.find q).1.sz ((s.find p).2) := by
    rw [hr1, hfp]
    exact ha2.hszr _ hpr2
  have hc2 : (findE (findE t p).1 q).1.sz ((findE (findE t p).1 q).2) =
      ((s.find p).1.find q).1.sz (((s.find p).1.find q).2) := by
    rw [hr2, hfq]
    exact ha2.hszr _ hqr2
  rw [union_unfold, unionE_unfold, hc1, hc2, hr1, hr2]
  by_cases hcond : ((s.find p).1.find q).2 = (s.find p).2
  · rw [if_pos hcond, if_pos hcond]
    exact ha2
  · rw [if_neg hcond, if_neg hcond]
    by_cases hlt : ((s.find p).1.find q).1.sz ((s.find p).2) <
        ((s.find p).1.find q).1.sz (((s.find p).1.find q).2)
    · rw [if_pos hlt, if_pos hlt]
      refine ⟨ha2.hn, ?_, ?_, ?_⟩
      · show Function.update (findE (findE t p).1 q).1.parent ((s.find p).2)
          (((s.find p).1.find q).2) = _
        rw [ha2.hparent]
      · show (findE (findE t p).1 q).1.cnt - 1 = _
        rw [ha2.hcnt]
      · intro x hx
        show Function.update (findE (findE t p).1 q).1.sz
            (((s.find p).1.find q).2)
            (((s.find p).1.find q).1.sz ((s.find p).2) +
              ((s.find p).1.find q).1.sz (((s.find p).1.find q).2)) x =
          Function.update ((s.find p).1.find q).1.sz
            (((s.find p).1.find q).2)
            (((s.find p).1.find q).1.sz ((s.find p).2) +
              ((s.find p).1.find q).1.sz (((s.find p).1.find q).2)) x
        have hx' : Function.update ((s.find p).1.find q).1.parent
            ((s.find p).2) (((s.find p).1.find q).2) x = x := hx
        rw [link_root_iff hpr2' (fun h => hcond h.symm) x] at hx'
        by_cases hxb : x = ((s.find p).1.find q).2
        · subst hxb
          rw [Function.update_same, Function.update_same]
        · rw [Function.update_noteq hxb, Function.update_noteq hxb]
          exact ha2.hszr x hx'.1
    · rw [if_neg hlt, if_neg hlt]
      refine ⟨ha2.hn, ?_, ?_, ?_⟩
      · show Function.update (findE (findE t p).1 q).1.parent
          (((s.find p).1.find q).2) ((s.find p).2) = _
        rw [ha2.hparent]
      · show (findE (findE t p).1 q).1.cnt - 1 = _
        rw [ha2.hcnt]
      · intro x hx
        show Function.update (findE (findE t p).1 q).1.sz
            ((s.find p).2)
            (((s.find p).1.find q).1.sz ((s.find p).2) +
              ((s.find p).1.find q).1.sz (((s.find p).1.find q).2)) x =
          Function.update ((s.find p).1.find q).1.sz
            ((s.find p).2)
            (((s.find p).1.find q).1.sz ((s.find p).2) +
              ((s.find p).1.find q).1.sz (((s.find p).1.find q).2)) x
        have hx' : Function.update ((s.find p).1.find q).1.parent
            (((s.find p).1.find q).2) ((s.find p).2) x = x := hx
        rw [link_root_iff hqr2' hcond x] at hx'
        by_cases hxb : x = (s.find p).2
        · subst hxb
          rw [Function.update_same, Function.update_same]
        · rw [Function.update_noteq hxb, Function.update_noteq hxb]
          exact ha2.hszr x hx'.1

/-- The real run and the exact-size run stay in lock step on any
in-range sequence of unions. -/
theorem exec_bisim (n : Nat) (ops : List (Nat × Nat))
    (hops : OpsInRange n ops) :
    SzAgree (execUnions n ops) (execUnionsE n ops) := by
  induction ops using List.reverseRecOn with
  | nil => exact ⟨rfl, rfl, rfl, fun _ _ => rfl⟩
  | append_singleton l pq ih =>
    have hl : OpsInRange n l := fun x hx => hops x (List.mem_append_left _ hx)
    have hpq : pq.1 < n ∧ pq.2 < n := hops pq (by simp)
    have hexec : execUnions n (l ++ [pq]) = (execUnions n l).union pq.1 pq.2 := by
      unfold execUnions
      rw [List.foldl_append]
      rfl
    have hexecE : execUnionsE n (l ++ [pq]) =
        unionE (execUnionsE n l) pq.1 pq.2 := by
      unfold execUnionsE
      rw [List.foldl_append]
      rfl
    rw [hexec, hexecE]
    have htracks := tracks_exec n l hl
    exact unionE_bisim htracks.inv (ih hl)
      (by rw [htracks.hn]; exact hpq.1) (by rw [htracks.hn]; exact hpq.2)

/-! ### Coordinate lists -/
theorem mem_evens {n v : Nat} : v ∈ evens n ↔ v < n ∧ v % 2 = 0 := by
  simp [evens, List.mem_filter, List.mem_range]

theorem mem_odds {n v : Nat} : v ∈ odds n ↔ v < n ∧ v % 2 = 1 := by
  simp [odds, List.mem_filter, List.mem_range]

theorem mem_cellList {w h : Nat} {p : Nat × Nat} :
    p ∈ cellList w h ↔ RoomP w h p := by
  obtain ⟨x, y⟩ := p
  simp only [cellList, List.mem_flatMap, List.mem_map, mem_evens, RoomP]
  constructor
  · rintro ⟨a, ⟨ha1, ha2⟩, b, ⟨hb1, hb2⟩, heq⟩
    obtain ⟨rfl, rfl⟩ := Prod.mk.injEq .. ▸ heq
    exact ⟨ha1, hb1, ha2, hb2⟩
  · rintro ⟨h1, h2, h3, h4⟩
    exact ⟨x, ⟨h1, h3⟩, y, ⟨h2, h4⟩, rfl⟩

theorem mem_notCareList {w h : Nat} {p : Nat × Nat} :
    p ∈ notCareList w h ↔
      p.1 < w ∧ p.2 < h ∧ p.1 % 2 = 1 ∧ p.2 % 2 = 1 := by
  obtain ⟨x, y⟩ := p
  simp only [notCareList, List.mem_flatMap, List.mem_map, mem_odds]
  constructor
  · rintro ⟨a, ⟨ha1, ha2⟩, b, ⟨hb1, hb2⟩, heq⟩
    obtain ⟨rfl, rfl⟩ := Prod.mk.injEq .. ▸ heq
    exact ⟨ha1, hb1, ha2, hb2⟩
  · rintro ⟨h1, h2, h3, h4⟩
    exact ⟨x, ⟨h1, h3⟩, y, ⟨h2, h4⟩, rfl⟩

theorem mem_wallList {w h : Nat} {p : Nat × Nat} :
    p ∈ wallList w h ↔
      p.1 < w ∧ p.2 < h ∧
        (p.1 % 2 = 1 ∧ p.2 % 2 = 0 ∨ p.1 % 2 = 0 ∧ p.2 % 2 = 1) := by
  obtain ⟨x, y⟩ := p
  simp only [wallList, List.mem_append, List.mem_flatMap, List.mem_map,
    mem_evens, mem_odds]
  constructor
  · rintro (⟨a, ⟨ha1, ha2⟩, b, ⟨hb1, hb2⟩, heq⟩ |
      ⟨a, ⟨ha1, ha2⟩, b, ⟨hb1, hb2⟩, heq⟩) <;>
      obtain ⟨rfl, rfl⟩ := Prod.mk.injEq .. ▸ heq
    · exact ⟨ha1, hb1, Or.inl ⟨ha2, hb2⟩⟩
    · exact ⟨ha1, hb1, Or.inr ⟨ha2, hb2⟩⟩
  · rintro ⟨h1, h2, ⟨h3, h4⟩ | ⟨h3, h4⟩⟩
    · exact Or.inl ⟨x, ⟨h1, h3⟩, y, ⟨h2, h4⟩, rfl⟩
    · exact Or.inr ⟨x, ⟨h1, h3⟩, y, ⟨h2, h4⟩, rfl⟩

theorem flatMap_pairs_nodup {l1 l2 : List Nat} (h1 : l1.Nodup)
    (h2 : l2.Nodup) :
    (l1.flatMap (fun x => l2.map (fun y => (x, y)))).Nodup := by
  induction l1 with
  | nil => simp
  | cons a l ih =>
    rw [List.nodup_cons] at h1
    rw [List.flatMap_cons, List.nodup_append]
    refine ⟨h2.map (fun y₁ y₂ hy => (Prod.mk.injEq .. ▸ hy).2), ih h1.2, ?_⟩
    intro p hp hp'
    rw [List.mem_map] at hp
    obtain ⟨y, _, rfl⟩ := hp
    rw [List.mem_flatMap] at hp'
    obtain ⟨x, hx, hx'⟩ := hp'
    rw [List.mem_map] at hx'
    obtain ⟨y', _, heq⟩ := hx'
    exact h1.1 ((Prod.mk.injEq .. ▸ heq).1 ▸ hx)

theorem evens_nodup (n : Nat) : (evens n).Nodup :=
  (List.nodup_range n).filter _

theorem odds_nodup (n : Nat) : (odds n).Nodup :=
  (List.nodup_range n).filter _

theorem cellList_nodup (w h : Nat) : (cellList w h).Nodup :=
  flatMap_pairs_nodup (evens_nodup w) (evens_nodup h)

theorem wallList_nodup (w h : Nat) : (wallList w h).Nodup := by
  rw [wallList, List.nodup_append]
  refine ⟨flatMap_pairs_nodup (odds_nodup w) (evens_nodup h),
    flatMap_pairs_nodup (evens_nodup w) (odds_nodup h), ?_⟩
  intro p hp hp'
  rw [List.mem_flatMap] at hp hp'
  obtain ⟨x, hx, hx'⟩ := hp
  obtain ⟨x', hx2, hx2'⟩ := hp'
  rw [List.mem_map] at hx' hx2'
  obtain ⟨y, hy, rfl⟩ := hx'
  obtain ⟨y', hy2, heq⟩ := hx2'
  have := (Prod.mk.injEq .. ▸ heq).1
  rw [mem_odds] at hx
  rw [mem_evens] at hx2
  omega

/-! ### The raw index and the dense-id bijection -/
/-- The raw grid index `x + y * width` used by the adapter. -/
theorem raw_inj {w : Nat} {p q : Nat × Nat} (hp : p.1 < w) (hq : q.1 < w)
    (h : p.1 + p.2 * w = q.1 + q.2 * w) : p = q := by
  have h1 : (p.1 + p.2 * w) % w = p.1 := by
    rw [Nat.add_mul_mod_self_right, Nat.mod_eq_of_lt hp]
  have h2 : (q.1 + q.2 * w) % w = q.1 := by
    rw [Nat.add_mul_mod_self_right, Nat.mod_eq_of_lt hq]
  have hx : p.1 = q.1 := by rw [← h1, ← h2, h]
  have hw : 0 < w := by omega
  have hy : p.2 = q.2 := by
    have h3 : p.2 * w = q.2 * w := by
      have h4 := h
      rw [hx] at h4
      exact Nat.add_left_cancel h4
    exact Nat.eq_of_mul_eq_mul_right hw h3
  exact Prod.ext hx hy

theorem buildIndexMapAux_not_mem {w : Nat} :
    ∀ (pts : List (Nat × Nat)) (i : Nat) (m : Nat → Nat) (k : Nat),
      (∀ p ∈ pts, p.1 + p.2 * w ≠ k) →
      buildIndexMapAux w i pts m k = m k := by
  intro pts
  induction pts with
  | nil => intro i m k _; rfl
  | cons p rest ih =>
    intro i m k hk
    rw [buildIndexMapAux, ih _ _ _
      (fun q hq => hk q (List.mem_cons_of_mem _ hq))]
    exact Function.update_noteq (Ne.symm (hk p (List.mem_cons_self _ _))) _ _

theorem buildIndexMapAux_get {w : Nat} :
    ∀ (pts : List (Nat × Nat)) (i : Nat) (m : Nat → Nat),
      (pts.map (fun p => p.1 + p.2 * w)).Nodup →
      ∀ (j : Nat) (hj : j < pts.length),
        buildIndexMapAux w i pts m
          ((pts.get ⟨j, hj⟩).1 + (pts.get ⟨j, hj⟩).2 * w) = i + j := by
  intro pts
  induction pts with
  | nil => intro i m _ j hj; exact absurd hj (by simp)
  | cons p rest ih =>
    intro i m hnd j hj
    rw [List.map_cons, List.nodup_cons] at hnd
    match j with
    | 0 =>
      rw [buildIndexMapAux]
      show buildIndexMapAux w (i + 1) rest
        (Function.update m (p.1 + p.2 * w) i) (p.1 + p.2 * w) = i + 0
      rw [buildIndexMapAux_not_mem rest (i + 1) _ _
        (fun q hq hk => hnd.1 (List.mem_map.2 ⟨q, hq, hk⟩))]
      rw [Function.update_same]
      omega
    | Nat.succ j' =>
      rw [buildIndexMapAux]
      show buildIndexMapAux w (i + 1) rest
        (Function.update m (p.1 + p.2 * w) i)
        ((rest.get ⟨j', by simpa using hj⟩).1 +
          (rest.get ⟨j', by simpa using hj⟩).2 * w) = i + (j' + 1)
      rw [ih (i + 1) _ hnd.2 j' (by simpa using hj)]
      omega

theorem cellList_raw_nodup (w h : Nat) :
    ((cellList w h).map (fun p => p.1 + p.2 * w)).Nodup := by
  refine (cellList_nodup w h).map_on ?_
  intro p hp q hq heq
  exact raw_inj (mem_cellList.1 hp).1 (mem_cellList.1 hq).1 heq

/-- The dense id of the `j`-th room cell is `j`. -/
theorem rid_get (w h : Nat) (j : Nat) (hj : j < (cellList w h).length) :
    rid w h ((cellList w h).get ⟨j, hj⟩) = j := by
  unfold rid buildIndexMap
  have := buildIndexMapAux_get (cellList w h) 0 (fun _ => 0)
    (cellList_raw_nodup w h) j hj
  simpa using this

theorem rid_lt {w h : Nat} {p : Nat × Nat} (hp : p ∈ cellList w h) :
    rid w h p < (cellList w h).length := by
  obtain ⟨⟨j, hj⟩, rfl⟩ := List.mem_iff_get.1 hp
  rw [rid_get w h j hj]
  exact hj

theorem rid_inj {w h : Nat} {p q : Nat × Nat} (hp : p ∈ cellList w h)
    (hq : q ∈ cellList w h) (heq : rid w h p = rid w h q) : p = q := by
  obtain ⟨⟨j, hj⟩, rfl⟩ := List.mem_iff_get.1 hp
  obtain ⟨⟨k, hk⟩, rfl⟩ := List.mem_iff_get.1 hq
  rw [rid_get w h j hj, rid_get w h k hk] at heq
  subst heq
  rfl

theorem rid_surj {w h : Nat} {i : Nat} (hi : i < (cellList w h).length) :
    ∃ p ∈ cellList w h, rid w h p = i :=
  ⟨(cellList w h).get ⟨i, hi⟩, List.get_mem _ _ hi, rid_get w h i hi⟩

/-! ### Generic graph lemmas -/
theorem reachable_iff_eqvGen {V : Type} (G : SimpleGraph V) (u v : V) :
    G.Reachable u v ↔ Relation.EqvGen G.Adj u v := by
  constructor
  · rintro ⟨p⟩
    induction p with
    | nil => exact Relation.EqvGen.refl _
    | cons hadj _ ih =>
      exact Relation.EqvGen.trans _ _ _ (Relation.EqvGen.rel _ _ hadj) ih
  · intro h
    induction h with
    | rel x y hxy => exact hxy.reachable
    | refl x => exact SimpleGraph.Reachable.refl x
    | symm x y _ ih => exact ih.symm
    | trans x y z _ _ ih₁ ih₂ => exact ih₁.trans ih₂

/-- Adding an edge between two vertices in different components keeps a
graph acyclic. -/
theorem isAcyclic_sup_edge {V : Type} {G : SimpleGraph V} {u v : V}
    (hne : u ≠ v) (hnr : ¬ G.Reachable u v) (hac : G.IsAcyclic) :
    (G ⊔ SimpleGraph.edge u v).IsAcyclic := by
  have hnadj : ¬ G.Adj u v := fun h => hnr h.reachable
  have hdel : (G ⊔ SimpleGraph.edge u v) \
      SimpleGraph.fromEdgeSet {s(u, v)} = G := by
    ext a b
    simp only [SimpleGraph.sdiff_adj, SimpleGraph.sup_adj,
      SimpleGraph.edge_adj, SimpleGraph.fromEdgeSet_adj,
      Set.mem_singleton_iff, Sym2.eq_iff]
    constructor
    · rintro ⟨hl | ⟨hcase, hab⟩, hr⟩
      · exact hl
      · exact absurd ⟨hcase, hab⟩ hr
    · intro hadj
      refine ⟨Or.inl hadj, ?_⟩
      rintro ⟨⟨rfl, rfl⟩ | ⟨rfl, rfl⟩, _⟩
      · exact hnadj hadj
      · exact hnadj hadj.symm
  have hbridge : (G ⊔ SimpleGraph.edge u v).IsBridge s(u, v) := by
    rw [SimpleGraph.isBridge_iff]
    constructor
    · rw [SimpleGraph.sup_adj, SimpleGraph.edge_adj]
      exact Or.inr ⟨Or.inl ⟨rfl, rfl⟩, hne⟩
    · rw [hdel]
      exact hnr
  intro w c hc
  have hno : s(u, v) ∉ c.edges :=
    (SimpleGraph.isBridge_iff_adj_and_forall_cycle_not_mem.1 hbridge).2 c hc
  have hsub : ∀ e ∈ c.edges, e ∈ G.edgeSet := by
    intro e he
    have h1 := c.edges_subset_edgeSet he
    rw [SimpleGraph.edgeSet_sup, SimpleGraph.edge_edgeSet_of_ne hne] at h1
    rcases h1 with h1 | h1
    · exact h1
    · exact absurd (Set.mem_singleton_iff.1 h1 ▸ he) hno
  exact hac (c.transfer G hsub) (hc.transfer hsub)

theorem mem_cellList_mk {w h x y : Nat} :
    (x, y) ∈ cellList w h ↔ x < w ∧ y < h ∧ x % 2 = 0 ∧ y % 2 = 0 :=
  mem_cellList

theorem mem_notCareList_mk {w h x y : Nat} :
    (x, y) ∈ notCareList w h ↔ x < w ∧ y < h ∧ x % 2 = 1 ∧ y % 2 = 1 :=
  mem_notCareList

theorem mem_wallList_mk {w h x y : Nat} :
    (x, y) ∈ wallList w h ↔
      x < w ∧ y < h ∧ (x % 2 = 1 ∧ y % 2 = 0 ∨ x % 2 = 0 ∧ y % 2 = 1) :=
  mem_wallList

theorem wallRooms_mk_odd {x y : Nat} (hx : x % 2 = 1) :
    wallRooms (x, y) = ((x - 1, y), (x + 1, y)) := by
  rw [wallRooms, if_pos (by simpa using hx)]

theorem wallRooms_mk_even {x y : Nat} (hx : x % 2 = 0) :
    wallRooms (x, y) = ((x, y - 1), (x, y + 1)) := by
  rw [wallRooms, if_neg (by simp [hx])]

theorem wallRooms_mem {w h : Nat} (hw : w % 2 = 1) (hh : h % 2 = 1)
    {p : Nat × Nat} (hp : p ∈ wallList w h) :
    (wallRooms p).1 ∈ cellList w h ∧ (wallRooms p).2 ∈ cellList w h := by
  obtain ⟨x, y⟩ := p
  obtain ⟨h1, h2, ⟨h3, h4⟩ | ⟨h3, h4⟩⟩ := mem_wallList_mk.1 hp
  · rw [wallRooms_mk_odd h3]
    exact ⟨mem_cellList_mk.2 ⟨by omega, by omega, by omega, by omega⟩,
      mem_cellList_mk.2 ⟨by omega, by omega, by omega, by omega⟩⟩
  · rw [wallRooms_mk_even h3]
    exact ⟨mem_cellList_mk.2 ⟨by omega, by omega, by omega, by omega⟩,
      mem_cellList_mk.2 ⟨by omega, by omega, by omega, by omega⟩⟩

theorem wallRooms_inj {w h : Nat} {p q : Nat × Nat} (hp : p ∈ wallList w h)
    (hq : q ∈ wallList w h) (heq : wallRooms p = wallRooms q) : p = q := by
  obtain ⟨x, y⟩ := p
  obtain ⟨a, b⟩ := q
  obtain ⟨h1, h2, ⟨h3, h4⟩ | ⟨h3, h4⟩⟩ := mem_wallList_mk.1 hp <;>
    obtain ⟨g1, g2, ⟨g3, g4⟩ | ⟨g3, g4⟩⟩ := mem_wallList_mk.1 hq
  · rw [wallRooms_mk_odd h3, wallRooms_mk_odd g3] at heq
    have e1 := congrArg (fun t => t.1.1) heq
    have e2 := congrArg (fun t => t.1.2) heq
    have e3 := congrArg (fun t => t.2.1) heq
    simp only at e1 e2 e3
    exact Prod.ext (by omega) (by omega)
  · rw [wallRooms_mk_odd h3, wallRooms_mk_even g3] at heq
    have e1 := congrArg (fun t => t.1.1) heq
    have e3 := congrArg (fun t => t.2.1) heq
    simp only at e1 e3
    omega
  · rw [wallRooms_mk_even h3, wallRooms_mk_odd g3] at heq
    have e1 := congrArg (fun t => t.1.1) heq
    have e3 := congrArg (fun t => t.2.1) heq
    simp only at e1 e3
    omega
  · rw [wallRooms_mk_even h3, wallRooms_mk_even g3] at heq
    have e1 := congrArg (fun t => t.1.1) heq
    have e2 := congrArg (fun t => t.1.2) heq
    have e4 := congrArg (fun t => t.2.2) heq
    simp only at e1 e2 e4
    exact Prod.ext (by omega) (by omega)

theorem wallOp_inj {w h : Nat} (hw : w % 2 = 1) (hh : h % 2 = 1)
    {p q : Nat × Nat} (hp : p ∈ wallList w h) (hq : q ∈ wallList w h)
    (heq : wallOp w h p = wallOp w h q) : p = q := by
  obtain ⟨hm1, hm2⟩ := wallRooms_mem hw hh hp
  obtain ⟨hn1, hn2⟩ := wallRooms_mem hw hh hq
  have ha := congrArg (fun t => t.1) heq
  have hb := congrArg (fun t => t.2) heq
  simp only [wallOp] at ha hb
  exact wallRooms_inj hp hq
    (Prod.ext (rid_inj hm1 hn1 ha) (rid_inj hm2 hn2 hb))

/-! ### Grid writes -/
theorem markCells_eq :
    ∀ (ls : List (Nat × Nat)) (g : Nat → Nat → Nat) (a b : Nat),
      markCells g ls a b = if (a, b) ∈ ls then 0 else g a b := by
  intro ls
  induction ls with
  | nil =>
    intro g a b
    rw [if_neg (List.not_mem_nil _)]
    rfl
  | cons c rest ih =>
    intro g a b
    show markCells (setCell g c.1 c.2 0) rest a b = _
    rw [ih]
    by_cases hr : (a, b) ∈ rest
    · rw [if_pos hr, if_pos (List.mem_cons_of_mem _ hr)]
    · rw [if_neg hr]
      show (if a = c.1 ∧ b = c.2 then 0 else g a b) = _
      by_cases hc : (a, b) = c
      · rw [if_pos ⟨congrArg Prod.fst hc, congrArg Prod.snd hc⟩,
          if_pos (hc ▸ List.mem_cons_self _ _)]
      · rw [if_neg (fun hh => hc (Prod.ext hh.1 hh.2)),
          if_neg (fun hh => by
            rcases List.mem_cons.1 hh with h' | h'
            · exact hc h'
            · exact hr h')]

theorem setCell_zero_le (g : Nat → Nat → Nat) (x y a b : Nat) :
    setCell g x y 0 a b ≤ g a b := by
  show (if a = x ∧ b = y then 0 else g a b) ≤ g a b
  split
  · omega
  · exact Nat.le_refl _

theorem setCell_zero_of_zero {g : Nat → Nat → Nat} {x y a b : Nat}
    (hg : g a b = 0) : setCell g x y 0 a b = 0 := by
  show (if a = x ∧ b = y then 0 else g a b) = 0
  split
  · rfl
  · exact hg

theorem cosmetic_le (w h : Nat) :
    ∀ (sel : List Nat) (g : Nat → Nat → Nat) (a b : Nat),
      cosmetic w h g sel a b ≤ g a b := by
  intro sel
  induction sel with
  | nil => intro g a b; exact Nat.le_refl _
  | cons i rest ih =>
    intro g a b
    show cosmetic w h (setCell g ((notCareList w h).getD i (0, 0)).1
      ((notCareList w h).getD i (0, 0)).2 0) rest a b ≤ g a b
    exact Nat.le_trans (ih _ a b) (setCell_zero_le _ _ _ _ _)

theorem markCells_le (ls : List (Nat × Nat)) (g : Nat → Nat → Nat)
    (a b : Nat) : markCells g ls a b ≤ g a b := by
  rw [markCells_eq]
  split
  · omega
  · exact Nat.le_refl _

theorem carveStep_eq_odd (s : MazeCellDSet × (Nat → Nat → Nat))
    (wc : Nat × Nat) (h : (wc.1 % 2 == 1) = true) :
    carveStep s wc =
      (if (s.1.is_connected (wc.1 - 1) wc.2 (wc.1 + 1) wc.2).2 then
        ((s.1.is_connected (wc.1 - 1) wc.2 (wc.1 + 1) wc.2).1, s.2)
      else
        ((s.1.is_connected (wc.1 - 1) wc.2 (wc.1 + 1) wc.2).1.union
          (wc.1 - 1) wc.2 (wc.1 + 1) wc.2, setCell s.2 wc.1 wc.2 0)) := by
  unfold carveStep
  rw [if_pos h]

theorem carveStep_eq_even (s : MazeCellDSet × (Nat → Nat → Nat))
    (wc : Nat × Nat) (h : ¬ (wc.1 % 2 == 1) = true) :
    carveStep s wc =
      (if (s.1.is_connected wc.1 (wc.2 - 1) wc.1 (wc.2 + 1)).2 then
        ((s.1.is_connected wc.1 (wc.2 - 1) wc.1 (wc.2 + 1)).1, s.2)
      else
        ((s.1.is_connected wc.1 (wc.2 - 1) wc.1 (wc.2 + 1)).1.union
          wc.1 (wc.2 - 1) wc.1 (wc.2 + 1), setCell s.2 wc.1 wc.2 0)) := by
  unfold carveStep
  rw [if_neg h]

theorem carveStep_grid_le (s : MazeCellDSet × (Nat → Nat → Nat))
    (wc : Nat × Nat) (a b : Nat) : (carveStep s wc).2 a b ≤ s.2 a b := by
  by_cases h : (wc.1 % 2 == 1) = true
  · rw [carveStep_eq_odd s wc h]
    split
    · exact Nat.le_refl _
    · exact setCell_zero_le _ _ _ _ _
  · rw [carveStep_eq_even s wc h]
    split
    · exact Nat.le_refl _
    · exact setCell_zero_le _ _ _ _ _

theorem carve_grid_le :
    ∀ (ws : List (Nat × Nat)) (s : MazeCellDSet × (Nat → Nat → Nat))
      (a b : Nat), (carve s ws).2 a b ≤ s.2 a b := by
  intro ws
  induction ws with
  | nil => intro s a b; exact Nat.le_refl _
  | cons wc rest ih =>
    intro s a b
    show (if s.1.count = 1 then s else carve (carveStep s wc) rest).2 a b ≤ _
    split
    · exact Nat.le_refl _
    · exact Nat.le_trans (ih _ a b) (carveStep_grid_le s wc a b)

theorem cosmetic_eq_of_parity (w h : Nat) :
    ∀ (sel : List Nat), (∀ i ∈ sel, i < (notCareList w h).length) →
      ∀ (g : Nat → Nat → Nat) (a b : Nat), ¬(a % 2 = 1 ∧ b % 2 = 1) →
        cosmetic w h g sel a b = g a b := by
  intro sel
  induction sel with
  | nil => intro _ g a b _; rfl
  | cons i rest ih =>
    intro hsel g a b hab
    have hi : i < (notCareList w h).length := hsel i (List.mem_cons_self _ _)
    have hdot : (notCareList w h).getD i (0, 0) ∈ notCareList w h := by
      rw [List.getD_eq_getElem _ _ hi]
      exact List.getElem_mem _
    have hodd := mem_notCareList.1 hdot
    show cosmetic w h (setCell g ((notCareList w h).getD i (0, 0)).1
      ((notCareList w h).getD i (0, 0)).2 0) rest a b = g a b
    rw [ih (fun j hj => hsel j (List.mem_cons_of_mem _ hj)) _ a b hab]
    show (if a = _ ∧ b = _ then 0 else g a b) = g a b
    rw [if_neg ?_]
    rintro ⟨rfl, rfl⟩
    exact hab ⟨hodd.2.2.1, hodd.2.2.2⟩

theorem cosmetic_sets (w h : Nat) :
    ∀ (sel : List Nat) (g : Nat → Nat → Nat), ∀ i ∈ sel,
      cosmetic w h g sel ((notCareList w h).getD i (0, 0)).1
        ((notCareList w h).getD i (0, 0)).2 = 0 := by
  intro sel
  induction sel with
  | nil => intro g i hi; exact absurd hi (List.not_mem_nil _)
  | cons j rest ih =>
    intro g i hi
    rcases List.mem_cons.1 hi with rfl | hi'
    · show cosmetic w h (setCell g ((notCareList w h).getD i (0, 0)).1
        ((notCareList w h).getD i (0, 0)).2 0) rest _ _ = 0
      have h1 := cosmetic_le w h rest (setCell g ((notCareList w h).getD i (0, 0)).1
        ((notCareList w h).getD i (0, 0)).2 0)
        ((notCareList w h).getD i (0, 0)).1 ((notCareList w h).getD i (0, 0)).2
      have h2 : setCell g ((notCareList w h).getD i (0, 0)).1
          ((notCareList w h).getD i (0, 0)).2 0
          ((notCareList w h).getD i (0, 0)).1
          ((notCareList w h).getD i (0, 0)).2 = 0 := by
        show (if _ ∧ _ then 0 else _) = 0
        rw [if_pos ⟨rfl, rfl⟩]
      omega
    · exact ih _ i hi'

/-! ### Room graph under grid writes -/
theorem roomGraph_congr {w h : Nat} {g g' : Nat → Nat → Nat}
    (hgg : ∀ a b, (a % 2 = 0 ∧ b % 2 = 1) ∨ (a % 2 = 1 ∧ b % 2 = 0) →
      g' a b = g a b) : roomGraph w h g' = roomGraph w h g := by
  ext u v
  obtain ⟨hu1, hu2, hu3, hu4⟩ := u.property
  obtain ⟨hv1, hv2, hv3, hv4⟩ := v.property
  show wallAdj g' u.val v.val ↔ wallAdj g u.val v.val
  unfold wallAdj
  rw [hgg u.val.1 (u.val.2 + 1) (Or.inl ⟨hu3, by omega⟩),
    hgg u.val.1 (v.val.2 + 1) (Or.inl ⟨hu3, by omega⟩),
    hgg (u.val.1 + 1) u.val.2 (Or.inr ⟨by omega, hu4⟩),
    hgg (v.val.1 + 1) u.val.2 (Or.inr ⟨by omega, hu4⟩)]

theorem setCell_zero_eq_zero_iff {g : Nat → Nat → Nat} {x y c d : Nat} :
    setCell g x y 0 c d = 0 ↔ ((c = x ∧ d = y) ∨ g c d = 0) := by
  show (if c = x ∧ d = y then 0 else g c d) = 0 ↔ _
  split
  · next hcd => exact ⟨fun _ => Or.inl hcd, fun _ => rfl⟩
  · next hcd =>
    exact ⟨fun hg => Or.inr hg, fun hg => hg.elim (fun hc => absurd hc hcd) id⟩

theorem setCell_other {g : Nat → Nat → Nat} {x y v c d : Nat}
    (hne : ¬(c = x ∧ d = y)) : setCell g x y v c d = g c d := by
  show (if c = x ∧ d = y then v else g c d) = g c d
  rw [if_neg hne]

/-- Opening the wall candidate `p` adds exactly the edge between the
two rooms it separates. -/
theorem roomGraph_setCell_wall {w h : Nat} (hw : w % 2 = 1) (hh : h % 2 = 1)
    {g : Nat → Nat → Nat} {p : Nat × Nat} (hp : p ∈ wallList w h)
    (U V : Room w h) (hU : U.val = (wallRooms p).1)
    (hV : V.val = (wallRooms p).2) :
    roomGraph w h (setCell g p.1 p.2 0) =
      roomGraph w h g ⊔ SimpleGraph.edge U V := by
  obtain ⟨x, y⟩ := p
  have hUV : U.val ≠ V.val := by
    rw [hU, hV]
    obtain ⟨_, _, ⟨h3, _⟩ | ⟨h3, _⟩⟩ := mem_wallList_mk.1 hp
    · rw [wallRooms_mk_odd h3]
      intro hc
      have := congrArg Prod.fst hc
      simp only at this
      omega
    · rw [wallRooms_mk_even h3]
      intro hc
      have := congrArg Prod.snd hc
      simp only at this
      omega
  ext u v
  rw [SimpleGraph.sup_adj, SimpleGraph.edge_adj]
  obtain ⟨hu1, hu2, hu3, hu4⟩ := u.property
  obtain ⟨hv1, hv2, hv3, hv4⟩ := v.property
  obtain ⟨hx, hy, ⟨hxo, hye⟩ | ⟨hxe, hyo⟩⟩ := mem_wallList_mk.1 hp
  · -- odd x: the wall separates (x-1, y) and (x+1, y)
    rw [wallRooms_mk_odd hxo] at hU hV
    show wallAdj (setCell g x y 0) u.val v.val ↔ _
    unfold wallAdj
    constructor
    · rintro (⟨h1, h2 | h2⟩ | ⟨h1, h2 | h2⟩)
      · rcases setCell_zero_eq_zero_iff.1 h2.2 with ⟨hc1, _⟩ | hg
        · omega
        · exact Or.inl (Or.inl ⟨h1, Or.inl ⟨h2.1, hg⟩⟩)
      · rcases setCell_zero_eq_zero_iff.1 h2.2 with ⟨hc1, _⟩ | hg
        · omega
        · exact Or.inl (Or.inl ⟨h1, Or.inr ⟨h2.1, hg⟩⟩)
      · rcases setCell_zero_eq_zero_iff.1 h2.2 with ⟨hc1, hc2⟩ | hg
        · refine Or.inr ⟨Or.inl ⟨Subtype.ext ?_, Subtype.ext ?_⟩, ?_⟩
          · rw [hU]
            refine Prod.ext ?_ ?_ <;> dsimp only <;> omega
          · rw [hV]
            refine Prod.ext ?_ ?_ <;> dsimp only <;> omega
          · intro he
            rw [he] at h2
            omega
        · exact Or.inl (Or.inr ⟨h1, Or.inl ⟨h2.1, hg⟩⟩)
      · rcases setCell_zero_eq_zero_iff.1 h2.2 with ⟨hc1, hc2⟩ | hg
        · refine Or.inr ⟨Or.inr ⟨Subtype.ext ?_, Subtype.ext ?_⟩, ?_⟩
          · rw [hV]
            refine Prod.ext ?_ ?_ <;> dsimp only <;> omega
          · rw [hU]
            refine Prod.ext ?_ ?_ <;> dsimp only <;> omega
          · intro he
            rw [he] at h2
            omega
        · exact Or.inl (Or.inr ⟨h1, Or.inr ⟨h2.1, hg⟩⟩)
    · rintro ((⟨h1, h2 | h2⟩ | ⟨h1, h2 | h2⟩) | ⟨⟨hu', hv'⟩ | ⟨hu', hv'⟩, hne⟩)
      · exact Or.inl ⟨h1, Or.inl ⟨h2.1, setCell_zero_of_zero h2.2⟩⟩
      · exact Or.inl ⟨h1, Or.inr ⟨h2.1, setCell_zero_of_zero h2.2⟩⟩
      · exact Or.inr ⟨h1, Or.inl ⟨h2.1, setCell_zero_of_zero h2.2⟩⟩
      · exact Or.inr ⟨h1, Or.inr ⟨h2.1, setCell_zero_of_zero h2.2⟩⟩
      · subst hu'; subst hv'
        have hu' : u.val = (x - 1, y) := hU
        have hv' : v.val = (x + 1, y) := hV
        refine Or.inr ⟨?_, Or.inl ⟨?_, ?_⟩⟩
        · rw [hu', hv']
        · rw [hu', hv']
          simp only
          omega
        · rw [hu']
          show setCell g x y 0 (x - 1 + 1) y = 0
          have : x - 1 + 1 = x := by omega
          rw [this]
          show (if x = x ∧ y = y then 0 else g x y) = 0
          rw [if_pos ⟨rfl, rfl⟩]
      · subst hu'; subst hv'
        have hu' : u.val = (x + 1, y) := hV
        have hv' : v.val = (x - 1, y) := hU
        refine Or.inr ⟨?_, Or.inr ⟨?_, ?_⟩⟩
        · rw [hu', hv']
        · rw [hu', hv']
          simp only
          omega
        · rw [hu', hv']
          show setCell g x y 0 (x - 1 + 1) y = 0
          have : x - 1 + 1 = x := by omega
          rw [this]
          show (if x = x ∧ y = y then 0 else g x y) = 0
          rw [if_pos ⟨rfl, rfl⟩]
  · -- odd y: the wall separates (x, y-1) and (x, y+1)
    rw [wallRooms_mk_even hxe] at hU hV
    show wallAdj (setCell g x y 0) u.val v.val ↔ _
    unfold wallAdj
    constructor
    · rintro (⟨h1, h2 | h2⟩ | ⟨h1, h2 | h2⟩)
      · rcases setCell_zero_eq_zero_iff.1 h2.2 with ⟨hc1, hc2⟩ | hg
        · refine Or.inr ⟨Or.inl ⟨Subtype.ext ?_, Subtype.ext ?_⟩, ?_⟩
          · rw [hU]
            refine Prod.ext ?_ ?_ <;> dsimp only <;> omega
          · rw [hV]
            refine Prod.ext ?_ ?_ <;> dsimp only <;> omega
          · intro he
            rw [he] at h2
            omega
        · exact Or.inl (Or.inl ⟨h1, Or.inl ⟨h2.1, hg⟩⟩)
      · rcases setCell_zero_eq_zero_iff.1 h2.2 with ⟨hc1, hc2⟩ | hg
        · refine Or.inr ⟨Or.inr ⟨Subtype.ext ?_, Subtype.ext ?_⟩, ?_⟩
          · rw [hV]
            refine Prod.ext ?_ ?_ <;> dsimp only <;> omega
          · rw [hU]
            refine Prod.ext ?_ ?_ <;> dsimp only <;> omega
          · intro he
            rw [he] at h2
            omega
        · exact Or.inl (Or.inl ⟨h1, Or.inr ⟨h2.1, hg⟩⟩)
      · rcases setCell_zero_eq_zero_iff.1 h2.2 with ⟨hc1, _⟩ | hg
        · omega
        · exact Or.inl (Or.inr ⟨h1, Or.inl ⟨h2.1, hg⟩⟩)
      · rcases setCell_zero_eq_zero_iff.1 h2.2 with ⟨hc1, _⟩ | hg
        · omega
        · exact Or.inl (Or.inr ⟨h1, Or.inr ⟨h2.1, hg⟩⟩)
    · rintro ((⟨h1, h2 | h2⟩ | ⟨h1, h2 | h2⟩) | ⟨⟨hu', hv'⟩ | ⟨hu', hv'⟩, hne⟩)
      · exact Or.inl ⟨h1, Or.inl ⟨h2.1, setCell_zero_of_zero h2.2⟩⟩
      · exact Or.inl ⟨h1, Or.inr ⟨h2.1, setCell_zero_of_zero h2.2⟩⟩
      · exact Or.inr ⟨h1, Or.inl ⟨h2.1, setCell_zero_of_zero h2.2⟩⟩
      · exact Or.inr ⟨h1, Or.inr ⟨h2.1, setCell_zero_of_zero h2.2⟩⟩
      · subst hu'; subst hv'
        have hu' : u.val = (x, y - 1) := hU
        have hv' : v.val = (x, y + 1) := hV
        refine Or.inl ⟨?_, Or.inl ⟨?_, ?_⟩⟩
        · rw [hu', hv']
        · rw [hu', hv']
          simp only
          omega
        · rw [hu']
          show setCell g x y 0 x (y - 1 + 1) = 0
          have : y - 1 + 1 = y := by omega
          rw [this]
          show (if x = x ∧ y = y then 0 else g x y) = 0
          rw [if_pos ⟨rfl, rfl⟩]
      · subst hu'; subst hv'
        have hu' : u.val = (x, y + 1) := hV
        have hv' : v.val = (x, y - 1) := hU
        refine Or.inl ⟨?_, Or.inr ⟨?_, ?_⟩⟩
        · rw [hu', hv']
        · rw [hu', hv']
          simp only
          omega
        · rw [hu', hv']
          show setCell g x y 0 x (y - 1 + 1) = 0
          have : y - 1 + 1 = y := by omega
          rw [this]
          show (if x = x ∧ y = y then 0 else g x y) = 0
          rw [if_pos ⟨rfl, rfl⟩]

/-- `find` does not change the tracked history. -/
theorem tracks_find {n : Nat} {ops : List (Nat × Nat)} {s : WQU}
    (ht : Tracks n ops s) {i : Nat} (hi : i < n) :
    Tracks n ops (s.find i).1 := by
  have hi' : i < s.n := by rw [ht.hn]; exact hi
  refine ⟨by rw [find_n, ht.hn], find_inv ht.inv hi', ?_, ?_, ?_⟩
  · intro a b ha hb
    rw [find_rootOf ht.inv hi' a (by rw [ht.hn]; exact ha),
      find_rootOf ht.inv hi' b (by rw [ht.hn]; exact hb)]
    exact ht.conn a b ha hb
  · rw [find_cnt, find_roots ht.inv hi']
    exact ht.cnt
  · intro x hx hfix
    have hfix' : s.parent x = x := (find_root_iff ht.inv hi' x).1 hfix
    rw [find_sz_root ht.inv hi' x hfix', ht.szx x hx hfix']
    have hceq : comp (s.find i).1 x = comp s x := by
      unfold comp
      rw [find_n]
      apply Finset.filter_congr
      intro y hy
      rw [Finset.mem_range] at hy
      rw [find_rootOf ht.inv hi' y hy]
    rw [hceq]

theorem cellDSet_is_connected_eq (c : MazeCellDSet) (x1 y1 x2 y2 : Nat) :
    c.is_connected x1 y1 x2 y2 =
      (⟨c.width, c.height, c.index_map,
        ((c.dset.find (c.index_map (x1 + y1 * c.width))).1.find
          (c.index_map (x2 + y2 * c.width))).1⟩,
       (c.dset.find (c.index_map (x1 + y1 * c.width))).2 ==
        ((c.dset.find (c.index_map (x1 + y1 * c.width))).1.find
          (c.index_map (x2 + y2 * c.width))).2) := rfl

theorem cellDSet_union_eq (c : MazeCellDSet) (x1 y1 x2 y2 : Nat) :
    c.union x1 y1 x2 y2 =
      ⟨c.width, c.height, c.index_map,
        c.dset.union (c.index_map (x1 + y1 * c.width))
          (c.index_map (x2 + y2 * c.width))⟩ := rfl

/-- Transfer of the equivalence closure across the dense-id encoding. -/
theorem eqvGen_transfer {V : Type} {G : SimpleGraph V}
    {A : List (Nat × Nat)} {f : V → Nat}
    (hadj : ∀ u v : V, G.Adj u v ↔ ((f u, f v) ∈ A ∨ (f v, f u) ∈ A))
    (hinj : ∀ u v : V, f u = f v → u = v)
    (hsurj : ∀ ij ∈ A, ∃ u v : V, f u = ij.1 ∧ f v = ij.2)
    (u v : V) :
    Relation.EqvGen G.Adj u v ↔ Relation.EqvGen (opRel A) (f u) (f v) := by
  constructor
  · intro hg
    induction hg with
    | rel a b hab =>
      rcases (hadj a b).1 hab with hin | hin
      · exact Relation.EqvGen.rel _ _ hin
      · exact Relation.EqvGen.symm _ _ (Relation.EqvGen.rel _ _ hin)
    | refl a => exact Relation.EqvGen.refl _
    | symm a b _ ih => exact Relation.EqvGen.symm _ _ ih
    | trans a b c _ _ ih₁ ih₂ => exact Relation.EqvGen.trans _ _ _ ih₁ ih₂
  · intro hg
    set R : Nat → Nat → Prop := fun i j =>
      (∃ a b : V, f a = i ∧ f b = j ∧ Relation.EqvGen G.Adj a b) ∨ i = j
      with hR
    have hEquiv : Equivalence R := by
      constructor
      · intro i
        exact Or.inr rfl
      · intro i j hij
        rcases hij with ⟨a, b, ha, hb, he⟩ | heq
        · exact Or.inl ⟨b, a, hb, ha, Relation.EqvGen.symm _ _ he⟩
        · exact Or.inr heq.symm
      · intro i j k hij hjk
        rcases hij with ⟨a, b, ha, hb, he⟩ | heq
        · rcases hjk with ⟨a', b', ha', hb', he'⟩ | heq'
          · have hba : b = a' := hinj _ _ (by rw [hb, ha'])
            exact Or.inl ⟨a, b', ha, hb',
              Relation.EqvGen.trans _ _ _ he (hba ▸ he')⟩
          · exact Or.inl ⟨a, b, ha, heq' ▸ hb, he⟩
        · rcases hjk with ⟨a', b', ha', hb', he'⟩ | heq'
          · exact Or.inl ⟨a', b', heq ▸ ha', hb', he'⟩
          · exact Or.inr (heq.trans heq')
    have hle : ∀ i j, opRel A i j → R i j := by
      intro i j hij
      obtain ⟨a, b, ha, hb⟩ := hsurj (i, j) hij
      refine Or.inl ⟨a, b, ha, hb, Relation.EqvGen.rel _ _ ?_⟩
      rw [hadj]
      exact Or.inl (by rw [ha, hb]; exact hij)
    have hRuv : R (f u) (f v) := by
      have := Relation.EqvGen.mono hle hg
      rwa [hEquiv.eqvGen_iff] at this
    rcases hRuv with ⟨a, b, ha, hb, he⟩ | heq
    · have hau : a = u := hinj _ _ ha
      have hbv : b = v := hinj _ _ hb
      exact hau ▸ hbv ▸ he
    · have : u = v := hinj _ _ heq
      exact this ▸ Relation.EqvGen.refl u

theorem room_val_mem {w h : Nat} (u : Room w h) : u.val ∈ cellList w h :=
  mem_cellList.2 u.property

/-- Under the carve invariant, room adjacency in the grid is exactly
membership of the corresponding id pair in the union history. -/
theorem carveInv_adj {w h : Nat} (hw : w % 2 = 1) (hh : h % 2 = 1)
    {A : List (Nat × Nat)} {s : MazeCellDSet × (Nat → Nat → Nat)}
    (hinv : CarveInv w h A s) (u v : Room w h) :
    (roomGraph w h s.2).Adj u v ↔
      ((rid w h u.val, rid w h v.val) ∈ A ∨
       (rid w h v.val, rid w h u.val) ∈ A) := by
  have aux : ∀ u' v' : Room w h,
      (rid w h u'.val, rid w h v'.val) ∈ A → (roomGraph w h s.2).Adj u' v' := by
    intro u' v' hpair
    obtain ⟨q, hq, hop⟩ := hinv.apairs _ hpair
    obtain ⟨hr1, hr2⟩ := wallRooms_mem hw hh hq
    have hopen : s.2 q.1 q.2 = 0 := (hinv.wallmatch q hq).2 (hop ▸ hpair)
    have h1 : rid w h (wallRooms q).1 = rid w h u'.val := congrArg Prod.fst hop
    have h2 : rid w h (wallRooms q).2 = rid w h v'.val := congrArg Prod.snd hop
    have hu' : (wallRooms q).1 = u'.val := rid_inj hr1 (room_val_mem u') h1
    have hv' : (wallRooms q).2 = v'.val := rid_inj hr2 (room_val_mem v') h2
    obtain ⟨a, b⟩ := q
    obtain ⟨ha1, hb1, ⟨hao, hbe⟩ | ⟨hae, hbo⟩⟩ := mem_wallList_mk.1 hq
    · rw [wallRooms_mk_odd hao] at hu' hv'
      have hu1 : u'.val.1 = a - 1 := by
        have := congrArg Prod.fst hu'
        dsimp only at this
        omega
      have hu2 : u'.val.2 = b := by
        have := congrArg Prod.snd hu'
        dsimp only at this
        omega
      have hv1 : v'.val.1 = a + 1 := by
        have := congrArg Prod.fst hv'
        dsimp only at this
        omega
      have hv2 : v'.val.2 = b := by
        have := congrArg Prod.snd hv'
        dsimp only at this
        omega
      show wallAdj s.2 u'.val v'.val
      refine Or.inr ⟨by omega, Or.inl ⟨by omega, ?_⟩⟩
      have hcx : u'.val.1 + 1 = a := by omega
      rw [hcx, hu2]
      exact hopen
    · rw [wallRooms_mk_even hae] at hu' hv'
      have hu1 : u'.val.1 = a := by
        have := congrArg Prod.fst hu'
        dsimp only at this
        omega
      have hu2 : u'.val.2 = b - 1 := by
        have := congrArg Prod.snd hu'
        dsimp only at this
        omega
      have hv1 : v'.val.1 = a := by
        have := congrArg Prod.fst hv'
        dsimp only at this
        omega
      have hv2 : v'.val.2 = b + 1 := by
        have := congrArg Prod.snd hv'
        dsimp only at this
        omega
      show wallAdj s.2 u'.val v'.val
      refine Or.inl ⟨by omega, Or.inl ⟨by omega, ?_⟩⟩
      have hcy : u'.val.2 + 1 = b := by omega
      rw [hcy, hu1]
      exact hopen
  constructor
  · intro hadj
    obtain ⟨hu1, hu2, hu3, hu4⟩ := u.property
    obtain ⟨hv1, hv2, hv3, hv4⟩ := v.property
    rcases hadj with ⟨h1, ⟨h2a, h2b⟩ | ⟨h2a, h2b⟩⟩ | ⟨h1, ⟨h2a, h2b⟩ | ⟨h2a, h2b⟩⟩
    · -- vertical neighbours, v above u: wall (u.1, u.2+1)
      left
      have hq : (u.val.1, u.val.2 + 1) ∈ wallList w h :=
        mem_wallList_mk.2 ⟨hu1, by omega, Or.inr ⟨hu3, by omega⟩⟩
      have hin := (hinv.wallmatch _ hq).1 h2b
      have hform : wallOp w h (u.val.1, u.val.2 + 1) =
          (rid w h u.val, rid w h v.val) := by
        unfold wallOp
        rw [wallRooms_mk_even hu3]
        have e1 : (u.val.1, u.val.2 + 1 - 1) = u.val := by
          rw [show u.val.2 + 1 - 1 = u.val.2 from by omega]
        have e2 : (u.val.1, u.val.2 + 1 + 1) = v.val := by
          rw [show u.val.2 + 1 + 1 = v.val.2 from by omega, h1]
        rw [e1, e2]
      rwa [hform] at hin
    · -- vertical neighbours, u above v: wall (u.1, v.2+1)
      right
      have hq : (u.val.1, v.val.2 + 1) ∈ wallList w h :=
        mem_wallList_mk.2 ⟨hu1, by omega, Or.inr ⟨hu3, by omega⟩⟩
      have hin := (hinv.wallmatch _ hq).1 h2b
      have hform : wallOp w h (u.val.1, v.val.2 + 1) =
          (rid w h v.val, rid w h u.val) := by
        unfold wallOp
        rw [wallRooms_mk_even hu3]
        have e1 : (u.val.1, v.val.2 + 1 - 1) = v.val := by
          rw [show v.val.2 + 1 - 1 = v.val.2 from by omega, h1]
        have e2 : (u.val.1, v.val.2 + 1 + 1) = u.val := by
          rw [show v.val.2 + 1 + 1 = u.val.2 from by omega]
        rw [e1, e2]
      rwa [hform] at hin
    · -- horizontal neighbours, v right of u: wall (u.1+1, u.2)
      left
      have hq : (u.val.1 + 1, u.val.2) ∈ wallList w h :=
        mem_wallList_mk.2 ⟨by omega, by omega, Or.inl ⟨by omega, hu4⟩⟩
      have hin := (hinv.wallmatch _ hq).1 h2b
      have hform : wallOp w h (u.val.1 + 1, u.val.2) =
          (rid w h u.val, rid w h v.val) := by
        unfold wallOp
        rw [wallRooms_mk_odd (by omega)]
        have e1 : (u.val.1 + 1 - 1, u.val.2) = u.val := by
          rw [show u.val.1 + 1 - 1 = u.val.1 from by omega]
        have e2 : (u.val.1 + 1 + 1, u.val.2) = v.val := by
          rw [show u.val.1 + 1 + 1 = v.val.1 from by omega, h1]
        rw [e1, e2]
      rwa [hform] at hin
    · -- horizontal neighbours, u right of v: wall (v.1+1, u.2)
      right
      have hq : (v.val.1 + 1, u.val.2) ∈ wallList w h :=
        mem_wallList_mk.2 ⟨by omega, by omega, Or.inl ⟨by omega, hu4⟩⟩
      have hin := (hinv.wallmatch _ hq).1 h2b
      have hform : wallOp w h (v.val.1 + 1, u.val.2) =
          (rid w h v.val, rid w h u.val) := by
        unfold wallOp
        rw [wallRooms_mk_odd (by omega)]
        have e1 : (v.val.1 + 1 - 1, u.val.2) = v.val := by
          rw [show v.val.1 + 1 - 1 = v.val.1 from by omega, h1]
        have e2 : (v.val.1 + 1 + 1, u.val.2) = u.val := by
          rw [show v.val.1 + 1 + 1 = u.val.1 from by omega]
        rw [e1, e2]
      rwa [hform] at hin
  · rintro (hpair | hpair)
    · exact aux u v hpair
    · exact (aux v u hpair).symm

theorem carveInv_reach {w h : Nat} (hw : w % 2 = 1) (hh : h % 2 = 1)
    {A : List (Nat × Nat)} {s : MazeCellDSet × (Nat → Nat → Nat)}
    (hinv : CarveInv w h A s) (u v : Room w h) :
    (roomGraph w h s.2).Reachable u v ↔
      Relation.EqvGen (opRel A) (rid w h u.val) (rid w h v.val) := by
  rw [reachable_iff_eqvGen]
  refine eqvGen_transfer (f := fun u : Room w h => rid w h u.val)
    (fun a b => carveInv_adj hw hh hinv a b) ?_ ?_ u v
  · intro a b hab
    exact Subtype.ext (rid_inj (room_val_mem a) (room_val_mem b) hab)
  · intro ij hij
    obtain ⟨q, hq, hop⟩ := hinv.apairs ij hij
    obtain ⟨hr1, hr2⟩ := wallRooms_mem hw hh hq
    exact ⟨⟨(wallRooms q).1, mem_cellList.1 hr1⟩,
      ⟨(wallRooms q).2, mem_cellList.1 hr2⟩,
      congrArg Prod.fst hop, congrArg Prod.snd hop⟩

theorem filter_length_update {α : Type} {l : List α} (hl : l.Nodup)
    {p : α} {f f' : α → Bool} :
    p ∈ l → (∀ q ∈ l, q ≠ p → f' q = f q) → f p = false → f' p = true →
    (l.filter f').length = (l.filter f).length + 1 := by
  induction l with
  | nil => intro hp; exact absurd hp (List.not_mem_nil _)
  | cons a rest ih =>
    intro hp hsame hfp hfp'
    rw [List.nodup_cons] at hl
    rcases List.mem_cons.1 hp with rfl | hp'
    · rw [List.filter_cons, List.filter_cons, hfp, hfp']
      have hrest : rest.filter f' = rest.filter f := by
        apply List.filter_congr
        intro q hq
        exact hsame q (List.mem_cons_of_mem _ hq) (fun hqa => hl.1 (hqa ▸ hq))
      rw [hrest]
      simp
    · have ha : a ≠ p := fun hap => hl.1 (hap ▸ hp')
      rw [List.filter_cons, List.filter_cons,
        hsame a (List.mem_cons_self _ _) ha]
      have := ih hl.2 hp' (fun q hq hqp => hsame q (List.mem_cons_of_mem _ hq) hqp)
        hfp hfp'
      by_cases hfa : f a = true
      · rw [hfa]
        rw [if_pos rfl, if_pos rfl, List.length_cons, List.length_cons]
        omega
      · rw [Bool.not_eq_true] at hfa
        rw [hfa]
        rw [if_neg (by decide : ¬ (false = true)), if_neg (by decide : ¬ (false = true))]
        exact this

/-- Rebuilding the invariant after a rejected wall (the two rooms were
already connected): only the disjoint set's internal representation
changed (path compression), the history and grid did not. -/
theorem carveInv_reject {w h : Nat} {A : List (Nat × Nat)}
    {s : MazeCellDSet × (Nat → Nat → Nat)} (hinv : CarveInv w h A s)
    {d2 : WQU} (ht2 : Tracks (cellList w h).length A d2)
    (hcnt2 : d2.cnt = s.1.dset.cnt) :
    CarveInv w h A
      (⟨s.1.width, s.1.height, s.1.index_map, d2⟩, s.2) := by
  refine ⟨hinv.hwidth, hinv.hheight, hinv.hmap, ht2, hinv.hA,
    hinv.wallmatch, hinv.apairs, hinv.rooms, hinv.acyc, ?_⟩
  show d2.cnt = _
  rw [hcnt2]
  exact hinv.cntp

/-- Rebuilding the invariant after an accepted wall: the id pair of the
two separated rooms is appended to the history, the wall cell is opened
and the two components are merged. -/
theorem carveInv_accept {w h : Nat} (hw : w % 2 = 1) (hh : h % 2 = 1)
    {A : List (Nat × Nat)} {s : MazeCellDSet × (Nat → Nat → Nat)}
    (hinv : CarveInv w h A s) {wc : Nat × Nat} (hwc : wc ∈ wallList w h)
    {d2 : WQU} (ht2 : Tracks (cellList w h).length A d2)
    (hcnt2 : d2.cnt = s.1.dset.cnt)
    (hne : rootOf d2 (rid w h (wallRooms wc).1) ≠
      rootOf d2 (rid w h (wallRooms wc).2)) :
    CarveInv w h (A ++ [(rid w h (wallRooms wc).1, rid w h (wallRooms wc).2)])
      (⟨s.1.width, s.1.height, s.1.index_map,
        d2.union (rid w h (wallRooms wc).1) (rid w h (wallRooms wc).2)⟩,
       setCell s.2 wc.1 wc.2 0) := by
  obtain ⟨hr1, hr2⟩ := wallRooms_mem hw hh hwc
  set N := (cellList w h).length with hN
  set i1 := rid w h (wallRooms wc).1 with hi1
  set i2 := rid w h (wallRooms wc).2 with hi2
  have hi1' : i1 < N := rid_lt hr1
  have hi2' : i2 < N := rid_lt hr2
  have hwop : wallOp w h wc = (i1, i2) := rfl
  have hclosed : s.2 wc.1 wc.2 ≠ 0 := by
    intro hzero
    have hin := (hinv.wallmatch wc hwc).1 hzero
    rw [hwop] at hin
    exact hne ((ht2.conn i1 i2 hi1' hi2').2 (Relation.EqvGen.rel _ _ hin))
  have hnreach : ¬ (roomGraph w h s.2).Reachable
      ⟨(wallRooms wc).1, mem_cellList.1 hr1⟩
      ⟨(wallRooms wc).2, mem_cellList.1 hr2⟩ := by
    intro hre
    rw [carveInv_reach hw hh hinv] at hre
    exact hne ((ht2.conn i1 i2 hi1' hi2').2 hre)
  have hvne : (wallRooms wc).1 ≠ (wallRooms wc).2 := by
    intro hv
    apply hne
    rw [hi1, hi2, hv]
  have hUV : (⟨(wallRooms wc).1, mem_cellList.1 hr1⟩ : Room w h) ≠
      ⟨(wallRooms wc).2, mem_cellList.1 hr2⟩ :=
    fun heqq => hvne (congrArg Subtype.val heqq)
  have hgraph : roomGraph w h (setCell s.2 wc.1 wc.2 0) =
      roomGraph w h s.2 ⊔ SimpleGraph.edge
        ⟨(wallRooms wc).1, mem_cellList.1 hr1⟩
        ⟨(wallRooms wc).2, mem_cellList.1 hr2⟩ :=
    roomGraph_setCell_wall hw hh hwc _ _ rfl rfl
  have htu := tracks_union ht2 hi1' hi2'
  refine ⟨hinv.hwidth, hinv.hheight, hinv.hmap, htu, ?_, ?_, ?_, ?_, ?_, ?_⟩
  · -- ranges
    intro pq hpq
    rcases List.mem_append.1 hpq with h' | h'
    · exact hinv.hA pq h'
    · rw [List.mem_singleton.1 h']
      exact ⟨hi1', hi2'⟩
  · -- wall states match the history
    intro q hq
    by_cases hqwc : q = wc
    · subst hqwc
      constructor
      · intro _
        rw [hwop]
        exact List.mem_append_right _ (List.mem_singleton.2 rfl)
      · intro _
        show setCell s.2 q.1 q.2 0 q.1 q.2 = 0
        show (if q.1 = q.1 ∧ q.2 = q.2 then 0 else s.2 q.1 q.2) = 0
        rw [if_pos ⟨rfl, rfl⟩]
    · have hcell : setCell s.2 wc.1 wc.2 0 q.1 q.2 = s.2 q.1 q.2 := by
        apply setCell_other
        rintro ⟨ha, hb⟩
        exact hqwc (Prod.ext ha hb)
      show setCell s.2 wc.1 wc.2 0 q.1 q.2 = 0 ↔ _
      rw [hcell]
      rw [hinv.wallmatch q hq]
      constructor
      · intro hin
        exact List.mem_append_left _ hin
      · intro hin
        rcases List.mem_append.1 hin with h' | h'
        · exact h'
        · exfalso
          have hop : wallOp w h q = (i1, i2) := List.mem_singleton.1 h'
          exact hqwc (wallOp_inj hw hh hq hwc (hop.trans hwop.symm))
  · -- every history pair comes from a wall
    intro ij hij
    rcases List.mem_append.1 hij with h' | h'
    · exact hinv.apairs ij h'
    · exact ⟨wc, hwc, hwop.trans (List.mem_singleton.1 h').symm⟩
  · -- rooms stay open
    intro p hp
    obtain ⟨hp1, hp2, hp3, hp4⟩ := mem_cellList.1 hp
    have hwcpar := mem_wallList.1 hwc
    have : ¬(p.1 = wc.1 ∧ p.2 = wc.2) := by
      rintro ⟨ha, hb⟩
      rcases hwcpar.2.2 with ⟨h3, _⟩ | ⟨_, h4⟩
      · omega
      · omega
    show setCell s.2 wc.1 wc.2 0 p.1 p.2 = 0
    rw [setCell_other this]
    exact hinv.rooms p hp
  · -- acyclicity
    rw [hgraph]
    exact isAcyclic_sup_edge hUV hnreach hinv.acyc
  · -- count bookkeeping
    show (d2.union i1 i2).cnt = (N : Int) - _
    have hc : (d2.union i1 i2).cnt = d2.cnt - 1 := by
      have := (union_spec_ne ht2.inv (p := i1) (q := i2)
        (by rw [ht2.hn]; exact hi1') (by rw [ht2.hn]; exact hi2')
        (fun hq => hne hq.symm)).2.2.1
      exact this
    have hpass : passableWallCount w h (setCell s.2 wc.1 wc.2 0) =
        passableWallCount w h s.2 + 1 := by
      unfold passableWallCount
      refine filter_length_update (wallList_nodup w h) hwc ?_ ?_ ?_
      · intro q hq hqwc
        have hcell : setCell s.2 wc.1 wc.2 0 q.1 q.2 = s.2 q.1 q.2 := by
          apply setCell_other
          rintro ⟨ha, hb⟩
          exact hqwc (Prod.ext ha hb)
        rw [hcell]
      · rw [beq_eq_false_iff_ne]
        exact hclosed
      · rw [beq_iff_eq]
        show (if wc.1 = wc.1 ∧ wc.2 = wc.2 then 0 else s.2 wc.1 wc.2) = 0
        rw [if_pos ⟨rfl, rfl⟩]
    rw [hc, hcnt2, hinv.cntp, hpass]
    push_cast
    omega

/-- One iteration of the carving loop preserves the invariant (with the
history possibly extended by the id pair of a newly opened wall). -/
theorem carveStep_inv {w h : Nat} (hw : w % 2 = 1) (hh : h % 2 = 1)
    {A : List (Nat × Nat)} {s : MazeCellDSet × (Nat → Nat → Nat)}
    (hinv : CarveInv w h A s) {wc : Nat × Nat} (hwc : wc ∈ wallList w h) :
    ∃ A', CarveInv w h A' (carveStep s wc) := by
  have ht := hinv.tracks
  obtain ⟨x, y⟩ := wc
  obtain ⟨hx, hy, hpar⟩ := mem_wallList_mk.1 hwc
  rcases hpar with ⟨hxo, hye⟩ | ⟨hxe, hyo⟩
  · -- odd-`x` wall: rooms to the left and right
    have hr1 : (x - 1, y) ∈ cellList w h :=
      mem_cellList_mk.2 ⟨by omega, hy, by omega, hye⟩
    have hr2 : (x + 1, y) ∈ cellList w h :=
      mem_cellList_mk.2 ⟨by omega, hy, by omega, hye⟩
    have hlt1 : rid w h (x - 1, y) < (cellList w h).length := rid_lt hr1
    have hlt2 : rid w h (x + 1, y) < (cellList w h).length := rid_lt hr2
    have hd1 : rid w h (x - 1, y) < s.1.dset.n := by rw [ht.hn]; exact hlt1
    have hd2 : rid w h (x + 1, y) < s.1.dset.n := by rw [ht.hn]; exact hlt2
    have hj1 : s.1.index_map ((x - 1) + y * s.1.width) = rid w h (x - 1, y) := by
      rw [hinv.hmap, hinv.hwidth]; rfl
    have hj2 : s.1.index_map ((x + 1) + y * s.1.width) = rid w h (x + 1, y) := by
      rw [hinv.hmap, hinv.hwidth]; rfl
    have hcond : (((x, y).1 % 2 == 1) = true) := by
      show (x % 2 == 1) = true
      rw [beq_iff_eq]; exact hxo
    rw [show carveStep s (x, y) =
        (if (s.1.is_connected (x - 1) y (x + 1) y).2 then
          ((s.1.is_connected (x - 1) y (x + 1) y).1, s.2)
        else
          ((s.1.is_connected (x - 1) y (x + 1) y).1.union (x - 1) y (x + 1) y,
           setCell s.2 x y 0))
      from carveStep_eq_odd s (x, y) hcond]
    have ht2 : Tracks (cellList w h).length A
        ((s.1.dset.find (rid w h (x - 1, y))).1.find (rid w h (x + 1, y))).1 :=
      tracks_find (tracks_find ht hlt1) hlt2
    have hcnt2 :
        ((s.1.dset.find (rid w h (x - 1, y))).1.find (rid w h (x + 1, y))).1.cnt
          = s.1.dset.cnt := by
      rw [find_cnt, find_cnt]
    have hcond2 : ((s.1.is_connected (x - 1) y (x + 1) y).2 = true) ↔
        rootOf s.1.dset (rid w h (x - 1, y)) =
          rootOf s.1.dset (rid w h (x + 1, y)) := by
      show ((s.1.dset.find (s.1.index_map ((x - 1) + y * s.1.width))).2 ==
          ((s.1.dset.find (s.1.index_map ((x - 1) + y * s.1.width))).1.find
            (s.1.index_map ((x + 1) + y * s.1.width))).2) = true ↔
        rootOf s.1.dset (rid w h (x - 1, y)) =
          rootOf s.1.dset (rid w h (x + 1, y))
      rw [hj1, hj2, find_root, find_root,
        find_rootOf ht.inv hd1 (rid w h (x + 1, y)) hd2, beq_iff_eq]
    by_cases hsame : rootOf s.1.dset (rid w h (x - 1, y)) =
        rootOf s.1.dset (rid w h (x + 1, y))
    · rw [if_pos (hcond2.2 hsame)]
      show ∃ A', CarveInv w h A'
        (⟨s.1.width, s.1.height, s.1.index_map,
          ((s.1.dset.find (s.1.index_map ((x - 1) + y * s.1.width))).1.find
            (s.1.index_map ((x + 1) + y * s.1.width))).1⟩, s.2)
      rw [hj1, hj2]
      exact ⟨A, carveInv_reject hinv ht2 hcnt2⟩
    · rw [if_neg (fun hc => hsame (hcond2.1 hc))]
      have hrootpres : ∀ z, z < s.1.dset.n →
          rootOf ((s.1.dset.find (rid w h (x - 1, y))).1.find
            (rid w h (x + 1, y))).1 z = rootOf s.1.dset z := by
        intro z hz
        rw [find_rootOf (find_inv ht.inv hd1) (by rw [find_n]; exact hd2) z
          (by rw [find_n]; exact hz), find_rootOf ht.inv hd1 z hz]
      have hne : rootOf ((s.1.dset.find (rid w h (x - 1, y))).1.find
            (rid w h (x + 1, y))).1 (rid w h (wallRooms (x, y)).1) ≠
          rootOf ((s.1.dset.find (rid w h (x - 1, y))).1.find
            (rid w h (x + 1, y))).1 (rid w h (wallRooms (x, y)).2) := by
        rw [wallRooms_mk_odd hxo]
        show rootOf _ (rid w h (x - 1, y)) ≠ rootOf _ (rid w h (x + 1, y))
        rw [hrootpres _ hd1, hrootpres _ hd2]
        exact hsame
      have hacc := carveInv_accept hw hh hinv hwc ht2 hcnt2 hne
      rw [wallRooms_mk_odd hxo] at hacc
      show ∃ A', CarveInv w h A'
        (⟨s.1.width, s.1.height, s.1.index_map,
          (((s.1.dset.find (s.1.index_map ((x - 1) + y * s.1.width))).1.find
            (s.1.index_map ((x + 1) + y * s.1.width))).1).union
            (s.1.index_map ((x - 1) + y * s.1.width))
            (s.1.index_map ((x + 1) + y * s.1.width))⟩,
         setCell s.2 x y 0)
      rw [hj1, hj2]
      exact ⟨_, hacc⟩
  · -- odd-`y` wall: rooms above and below
    have hr1 : (x, y - 1) ∈ cellList w h :=
      mem_cellList_mk.2 ⟨hx, by omega, hxe, by omega⟩
    have hr2 : (x, y + 1) ∈ cellList w h :=
      mem_cellList_mk.2 ⟨hx, by omega, hxe, by omega⟩
    have hlt1 : rid w h (x, y - 1) < (cellList w h).length := rid_lt hr1
    have hlt2 : rid w h (x, y + 1) < (cellList w h).length := rid_lt hr2
    have hd1 : rid w h (x, y - 1) < s.1.dset.n := by rw [ht.hn]; exact hlt1
    have hd2 : rid w h (x, y + 1) < s.1.dset.n := by rw [ht.hn]; exact hlt2
    have hj1 : s.1.index_map (x + (y - 1) * s.1.width) = rid w h (x, y - 1) := by
      rw [hinv.hmap, hinv.hwidth]; rfl
    have hj2 : s.1.index_map (x + (y + 1) * s.1.width) = rid w h (x, y + 1) := by
      rw [hinv.hmap, hinv.hwidth]; rfl
    have hcond : ¬ (((x, y).1 % 2 == 1) = true) := by
      show ¬ ((x % 2 == 1) = true)
      rw [beq_iff_eq]; omega
    rw [show carveStep s (x, y) =
        (if (s.1.is_connected x (y - 1) x (y + 1)).2 then
          ((s.1.is_connected x (y - 1) x (y + 1)).1, s.2)
        else
          ((s.1.is_connected x (y - 1) x (y + 1)).1.union x (y - 1) x (y + 1),
           setCell s.2 x y 0))
      from carveStep_eq_even s (x, y) hcond]
    have ht2 : Tracks (cellList w h).length A
        ((s.1.dset.find (rid w h (x, y - 1))).1.find (rid w h (x, y + 1))).1 :=
      tracks_find (tracks_find ht hlt1) hlt2
    have hcnt2 :
        ((s.1.dset.find (rid w h (x, y - 1))).1.find (rid w h (x, y + 1))).1.cnt
          = s.1.dset.cnt := by
      rw [find_cnt, find_cnt]
    have hcond2 : ((s.1.is_connected x (y - 1) x (y + 1)).2 = true) ↔
        rootOf s.1.dset (rid w h (x, y - 1)) =
          rootOf s.1.dset (rid w h (x, y + 1)) := by
      show ((s.1.dset.find (s.1.index_map (x + (y - 1) * s.1.width))).2 ==
          ((s.1.dset.find (s.1.index_map (x + (y - 1) * s.1.width))).1.find
            (s.1.index_map (x + (y + 1) * s.1.width))).2) = true ↔
        rootOf s.1.dset (rid w h (x, y - 1)) =
          rootOf s.1.dset (rid w h (x, y + 1))
      rw [hj1, hj2, find_root, find_root,
        find_rootOf ht.inv hd1 (rid w h (x, y + 1)) hd2, beq_iff_eq]
    by_cases hsame : rootOf s.1.dset (rid w h (x, y - 1)) =
        rootOf s.1.dset (rid w h (x, y + 1))
    · rw [if_pos (hcond2.2 hsame)]
      show ∃ A', CarveInv w h A'
        (⟨s.1.width, s.1.height, s.1.index_map,
          ((s.1.dset.find (s.1.index_map (x + (y - 1) * s.1.width))).1.find
            (s.1.index_map (x + (y + 1) * s.1.width))).1⟩, s.2)
      rw [hj1, hj2]
      exact ⟨A, carveInv_reject hinv ht2 hcnt2⟩
    · rw [if_neg (fun hc => hsame (hcond2.1 hc))]
      have hrootpres : ∀ z, z < s.1.dset.n →
          rootOf ((s.1.dset.find (rid w h (x, y - 1))).1.find
            (rid w h (x, y + 1))).1 z = rootOf s.1.dset z := by
        intro z hz
        rw [find_rootOf (find_inv ht.inv hd1) (by rw [find_n]; exact hd2) z
          (by rw [find_n]; exact hz), find_rootOf ht.inv hd1 z hz]
      have hne : rootOf ((s.1.dset.find (rid w h (x, y - 1))).1.find
            (rid w h (x, y + 1))).1 (rid w h (wallRooms (x, y)).1) ≠
          rootOf ((s.1.dset.find (rid w h (x, y - 1))).1.find
            (rid w h (x, y + 1))).1 (rid w h (wallRooms (x, y)).2) := by
        rw [wallRooms_mk_even hxe]
        show rootOf _ (rid w h (x, y - 1)) ≠ rootOf _ (rid w h (x, y + 1))
        rw [hrootpres _ hd1, hrootpres _ hd2]
        exact hsame
      have hacc := carveInv_accept hw hh hinv hwc ht2 hcnt2 hne
      rw [wallRooms_mk_even hxe] at hacc
      show ∃ A', CarveInv w h A'
        (⟨s.1.width, s.1.height, s.1.index_map,
          (((s.1.dset.find (s.1.index_map (x + (y - 1) * s.1.width))).1.find
            (s.1.index_map (x + (y + 1) * s.1.width))).1).union
            (s.1.index_map (x + (y - 1) * s.1.width))
            (s.1.index_map (x + (y + 1) * s.1.width))⟩,
         setCell s.2 x y 0)
      rw [hj1, hj2]
      exact ⟨_, hacc⟩

theorem rootOf_mem_roots {s : WQU} (hs : Inv s) {x : Nat} (hx : x < s.n) :
    rootOf s x ∈ roots s := by
  unfold roots
  rw [Finset.mem_filter, Finset.mem_range]
  exact ⟨rootOf_lt hs hx, rootOf_fixed hs hx⟩

theorem isAcyclic_of_not_adj {V : Type} {G : SimpleGraph V}
    (h : ∀ a b, ¬ G.Adj a b) : G.IsAcyclic := by
  intro v c hc
  cases c with
  | nil => exact absurd hc.three_le_length (by simp)
  | cons hadj _ => exact h _ _ hadj

/-- The state entering the carving loop satisfies the invariant with an
empty history: all walls closed, all rooms open, fresh disjoint set. -/
theorem carveInv_init (w h : Nat) :
    CarveInv w h []
      (MazeCellDSet.init (cellList w h) w h,
       markCells initialGrid (cellList w h)) := by
  have hgrid1 : ∀ a b : Nat, (a % 2 = 1 ∨ b % 2 = 1) →
      markCells initialGrid (cellList w h) a b = 1 := by
    intro a b hab
    rw [markCells_eq, if_neg]
    · rfl
    · intro hmem
      obtain ⟨_, _, h3, h4⟩ := mem_cellList_mk.1 hmem
      omega
  refine ⟨rfl, rfl, rfl, tracks_init _, ?_, ?_, ?_, ?_, ?_, ?_⟩
  · intro pq hpq
    exact absurd hpq (List.not_mem_nil _)
  · intro p hp
    obtain ⟨h1, h2, hpar⟩ := mem_wallList.1 hp
    have : markCells initialGrid (cellList w h) p.1 p.2 = 1 := by
      apply hgrid1
      rcases hpar with ⟨ho, _⟩ | ⟨_, ho⟩
      · exact Or.inl ho
      · exact Or.inr ho
    show markCells initialGrid (cellList w h) p.1 p.2 = 0 ↔ _
    rw [this]
    exact iff_of_false one_ne_zero (List.not_mem_nil _)
  · intro ij hij
    exact absurd hij (List.not_mem_nil _)
  · intro p hp
    show markCells initialGrid (cellList w h) p.1 p.2 = 0
    rw [markCells_eq, if_pos hp]
  · apply isAcyclic_of_not_adj
    show ∀ a b : Room w h,
      ¬ (roomGraph w h (markCells initialGrid (cellList w h))).Adj a b
    intro a b hadj
    obtain ⟨_, _, ha3, ha4⟩ := a.property
    obtain ⟨_, _, hb3, hb4⟩ := b.property
    rcases hadj with ⟨_, ⟨_, hmid⟩ | ⟨_, hmid⟩⟩ | ⟨_, ⟨_, hmid⟩ | ⟨_, hmid⟩⟩
    · rw [hgrid1 _ _ (Or.inr (by omega))] at hmid
      exact one_ne_zero hmid
    · rw [hgrid1 _ _ (Or.inr (by omega))] at hmid
      exact one_ne_zero hmid
    · rw [hgrid1 _ _ (Or.inl (by omega))] at hmid
      exact one_ne_zero hmid
    · rw [hgrid1 _ _ (Or.inl (by omega))] at hmid
      exact one_ne_zero hmid
  · have hp0 : passableWallCount w h (markCells initialGrid (cellList w h))
        = 0 := by
      unfold passableWallCount
      have hnil : (wallList w h).filter
          (fun p => markCells initialGrid (cellList w h) p.1 p.2 == 0)
            = [] := by
        rw [List.filter_eq_nil]
        intro p hp
        obtain ⟨h1, h2, hpar⟩ := mem_wallList.1 hp
        have : markCells initialGrid (cellList w h) p.1 p.2 = 1 := by
          apply hgrid1
          rcases hpar with ⟨ho, _⟩ | ⟨_, ho⟩
          · exact Or.inl ho
          · exact Or.inr ho
        rw [this]
        decide
      rw [hnil]
      rfl
    show (WQU.init (cellList w h).length).cnt = ((cellList w h).length : Int) -
      (passableWallCount w h (markCells initialGrid (cellList w h)) : Int)
    rw [hp0]
    show ((cellList w h).length : Int) = _
    simp

/-- Running the carving loop from any invariant state lands in an
invariant state (for some extended history). -/
theorem carve_inv {w h : Nat} (hw : w % 2 = 1) (hh : h % 2 = 1) :
    ∀ (ws : List (Nat × Nat)) (s : MazeCellDSet × (Nat → Nat → Nat))
      (A : List (Nat × Nat)), (∀ p ∈ ws, p ∈ wallList w h) →
      CarveInv w h A s → ∃ A', CarveInv w h A' (carve s ws) := by
  intro ws
  induction ws with
  | nil =>
    intro s A _ hinv
    exact ⟨A, hinv⟩
  | cons wc rest ih =>
    intro s A hmem hinv
    show ∃ A', CarveInv w h A'
      (if s.1.count = 1 then s else carve (carveStep s wc) rest)
    by_cases hc : s.1.count = 1
    · rw [if_pos hc]
      exact ⟨A, hinv⟩
    · rw [if_neg hc]
      obtain ⟨A', hinv'⟩ :=
        carveStep_inv hw hh hinv (hmem wc (List.mem_cons_self _ _))
      exact ih _ _ (fun p hp => hmem p (List.mem_cons_of_mem _ hp)) hinv'

theorem carveResult_inv {w h : Nat} (hw : w % 2 = 1) (hh : h % 2 = 1)
    (ws : List (Nat × Nat)) (hws : ∀ p ∈ ws, p ∈ wallList w h) :
    ∃ A, CarveInv w h A (carveResult w h ws) :=
  carve_inv hw hh ws _ [] hws (carveInv_init w h)

/-! ### The claims -/
/-- C1: for every odd width and height at least 3, when the carving
loop runs to completion (the disjoint-set count reaches 1), the number
of wall candidates marked passable is exactly the number of room cells
minus one, and the graph of room cells joined by passable wall
candidates is a spanning tree: there is exactly one simple path between
any two rooms. -/
theorem claimC1_spanning_tree {w h : Nat} (hw : w % 2 = 1) (hw3 : 3 ≤ w)
    (hh : h % 2 = 1) (hh3 : 3 ≤ h) (ws : List (Nat × Nat))
    (hws : ∀ p ∈ ws, p ∈ wallList w h)
    (hdone : (carveResult w h ws).1.count = 1) :
    passableWallCount w h (carveResult w h ws).2 =
      (cellList w h).length - 1 ∧
    (roomGraph w h (carveResult w h ws).2).IsTree ∧
    ∀ u v : Room w h,
      ∃! p : (roomGraph w h (carveResult w h ws).2).Walk u v, p.IsPath := by
  obtain ⟨A, hinv⟩ := carveResult_inv hw hh ws hws
  have ht := hinv.tracks
  have hd1 : (carveResult w h ws).1.dset.cnt = 1 := hdone
  have hcard : (roots (carveResult w h ws).1.dset).card = 1 := by
    have hc := ht.cnt
    rw [hd1] at hc
    exact_mod_cast hc.symm
  have hone : ∀ a b, a < (cellList w h).length → b < (cellList w h).length →
      rootOf (carveResult w h ws).1.dset a =
        rootOf (carveResult w h ws).1.dset b := by
    intro a b ha hb
    have ha' : a < (carveResult w h ws).1.dset.n := by rw [ht.hn]; exact ha
    have hb' : b < (carveResult w h ws).1.dset.n := by rw [ht.hn]; exact hb
    obtain ⟨r, hr⟩ := Finset.card_eq_one.1 hcard
    have h1 := rootOf_mem_roots ht.inv ha'
    have h2 := rootOf_mem_roots ht.inv hb'
    rw [hr, Finset.mem_singleton] at h1 h2
    rw [h1, h2]
  have hpass : passableWallCount w h (carveResult w h ws).2 =
      (cellList w h).length - 1 := by
    have hc := hinv.cntp
    rw [hd1] at hc
    omega
  have hpre : (roomGraph w h (carveResult w h ws).2).Preconnected := by
    intro u v
    refine (carveInv_reach hw hh hinv u v).2 ?_
    refine (ht.conn _ _ (rid_lt (room_val_mem u)) (rid_lt (room_val_mem v))).1 ?_
    exact hone _ _ (rid_lt (room_val_mem u)) (rid_lt (room_val_mem v))
  have hconn : (roomGraph w h (carveResult w h ws).2).Connected := by
    rw [SimpleGraph.connected_iff]
    exact ⟨hpre, ⟨⟨(0, 0), ⟨show 0 < w by omega, show 0 < h by omega,
      rfl, rfl⟩⟩⟩⟩
  have htree : (roomGraph w h (carveResult w h ws).2).IsTree :=
    ⟨hconn, hinv.acyc⟩
  exact ⟨hpass, htree, (SimpleGraph.isTree_iff_existsUnique_path.1 htree).2⟩

/-- Witness for C1: the 3×3 maze carved with the walls in list order
finishes with count 1 and 3 passable walls for 4 rooms. -/
theorem claimC1_spanning_tree_witness :
    3 % 2 = 1 ∧ 3 ≤ 3 ∧ (∀ p ∈ wallList 3 3, p ∈ wallList 3 3) ∧
    (carveResult 3 3 (wallList 3 3)).1.count = 1 ∧
    passableWallCount 3 3 (carveResult 3 3 (wallList 3 3)).2 =
      (cellList 3 3).length - 1 :=
  ⟨rfl, by omega, fun p hp => hp, by decide,
    (@claimC1_spanning_tree 3 3 rfl (by omega) rfl (by omega) (wallList 3 3)
      (fun p hp => hp) (by decide)).1⟩

/-- C2: after any in-range sequence of unions, `is_connected(p, q)`
returns true exactly when `p` and `q` are in the same connected
component of the union graph so far (its equivalence closure), and the
induced relation is reflexive, symmetric and transitive. -/
theorem claimC2_is_connected_iff {n : Nat} {ops : List (Nat × Nat)}
    (hops : OpsInRange n ops) :
    (∀ p q, p < n → q < n →
      (((execUnions n ops).is_connected p q).2 = true ↔
        Relation.EqvGen (opRel ops) p q)) ∧
    (∀ p, p < n → ((execUnions n ops).is_connected p p).2 = true) ∧
    (∀ p q, p < n → q < n → ((execUnions n ops).is_connected p q).2 = true →
      ((execUnions n ops).is_connected q p).2 = true) ∧
    (∀ p q r, p < n → q < n → r < n →
      ((execUnions n ops).is_connected p q).2 = true →
      ((execUnions n ops).is_connected q r).2 = true →
      ((execUnions n ops).is_connected p r).2 = true) := by
  have ht := tracks_exec n ops hops
  have hiff : ∀ p q, p < n → q < n →
      (((execUnions n ops).is_connected p q).2 = true ↔
        rootOf (execUnions n ops) p = rootOf (execUnions n ops) q) :=
    fun p q hp hq => is_connected_snd ht.inv (by rw [ht.hn]; exact hp)
      (by rw [ht.hn]; exact hq)
  refine ⟨fun p q hp hq => (hiff p q hp hq).trans (ht.conn p q hp hq),
    ?_, ?_, ?_⟩
  · intro p hp
    exact (hiff p p hp hp).2 rfl
  · intro p q hp hq hc
    exact (hiff q p hq hp).2 ((hiff p q hp hq).1 hc).symm
  · intro p q r hp hq hr h1 h2
    exact (hiff p r hp hr).2
      (((hiff p q hp hq).1 h1).trans ((hiff q r hq hr).1 h2))

/-- Witness for C2 at n = 5 after unions (0,1) and (2,3). -/
theorem claimC2_is_connected_iff_witness :
    OpsInRange 5 [(0, 1), (2, 3)] ∧
    (((execUnions 5 [(0, 1), (2, 3)]).is_connected 0 1).2 = true ↔
      Relation.EqvGen (opRel [(0, 1), (2, 3)]) 0 1) :=
  ⟨by decide, (@claimC2_is_connected_iff 5 [(0, 1), (2, 3)] (by decide)).1
    0 1 (by decide) (by decide)⟩

/-- C3 counterexample: the spec says a union on an already-connected
pair "changes nothing", but `union(1, 2)` on a state where 1 and 2
share a root still mutates the structure: the two `find` calls inside
`union` compress paths and reset `sz_map[2]` from 1 to 2. -/
theorem claimC3_union_counterexample :
    rootOf (execUnions 3 [(0, 1), (1, 2)]) 1 =
      rootOf (execUnions 3 [(0, 1), (1, 2)]) 2 ∧
    ((execUnions 3 [(0, 1), (1, 2)]).union 1 2).sz 2 = 2 ∧
    (execUnions 3 [(0, 1), (1, 2)]).sz 2 = 1 := by decide

/-- C3 (amended): on distinct roots, `union` attaches the
smaller-sized root below the larger (ties attach `q`'s root below
`p`'s), makes the surviving root's size the sum of both and decrements
`_count` by exactly one; on equal roots it leaves `_count`, the
partition and the root set unchanged (though the embedded `find` calls
may still compress paths and rewrite sizes). -/
theorem claimC3_union_by_size_amended {n : Nat} {ops : List (Nat × Nat)}
    (hops : OpsInRange n ops) {p q : Nat} (hp : p < n) (hq : q < n) :
    (rootOf (execUnions n ops) q ≠ rootOf (execUnions n ops) p →
      ((execUnions n ops).union p q).cnt = (execUnions n ops).cnt - 1 ∧
      ((execUnions n ops).sz (rootOf (execUnions n ops) p) <
          (execUnions n ops).sz (rootOf (execUnions n ops) q) →
        ((execUnions n ops).union p q).parent (rootOf (execUnions n ops) p) =
          rootOf (execUnions n ops) q ∧
        ((execUnions n ops).union p q).sz (rootOf (execUnions n ops) q) =
          (execUnions n ops).sz (rootOf (execUnions n ops) p) +
            (execUnions n ops).sz (rootOf (execUnions n ops) q)) ∧
      (¬ (execUnions n ops).sz (rootOf (execUnions n ops) p) <
          (execUnions n ops).sz (rootOf (execUnions n ops) q) →
        ((execUnions n ops).union p q).parent (rootOf (execUnions n ops) q) =
          rootOf (execUnions n ops) p ∧
        ((execUnions n ops).union p q).sz (rootOf (execUnions n ops) p) =
          (execUnions n ops).sz (rootOf (execUnions n ops) p) +
            (execUnions n ops).sz (rootOf (execUnions n ops) q))) ∧
    (rootOf (execUnions n ops) q = rootOf (execUnions n ops) p →
      ((execUnions n ops).union p q).cnt = (execUnions n ops).cnt ∧
      (∀ x, x < n → rootOf ((execUnions n ops).union p q) x =
        rootOf (execUnions n ops) x) ∧
      roots ((execUnions n ops).union p q) = roots (execUnions n ops)) := by
  have ht := tracks_exec n ops hops
  have hp' : p < (execUnions n ops).n := by rw [ht.hn]; exact hp
  have hq' : q < (execUnions n ops).n := by rw [ht.hn]; exact hq
  constructor
  · intro hne
    obtain ⟨_, _, hcnt, hlt, hge⟩ := union_spec_ne ht.inv hp' hq' hne
    refine ⟨hcnt, ?_, ?_⟩
    · intro hszlt
      obtain ⟨h1, h2, _⟩ := hlt hszlt
      exact ⟨h1, h2⟩
    · intro hszge
      obtain ⟨h1, h2, _⟩ := hge hszge
      exact ⟨h1, h2⟩
  · intro heq
    obtain ⟨_, _, hcnt, hroot, hroots, _⟩ := union_spec_eq ht.inv hp' hq' heq
    exact ⟨hcnt, fun x hx => hroot x (by rw [ht.hn]; exact hx), hroots⟩

/-- Witness for the amended C3, merging the two singletons 0 and 1. -/
theorem claimC3_union_by_size_amended_witness :
    OpsInRange 2 [] ∧ (0 : Nat) < 2 ∧ (1 : Nat) < 2 ∧
    ((execUnions 2 []).union 0 1).cnt = (execUnions 2 []).cnt - 1 :=
  ⟨by decide, by decide, by decide,
    ((@claimC3_union_by_size_amended 2 [] (by decide) 0 1 (by decide)
      (by decide)).1 (by decide)).1⟩

/-- C4: `find(p)` runs in two passes: the returned identifier is the
root found by the pure first walk (`rootAux`, no mutation), and the
second walk repoints exactly the visited non-root nodes of the path
directly to that root, leaving all other parents unchanged; moreover
after folding one `find` over every element, every element's direct
parent is a root (tree height at most 1). -/
theorem claimC4_two_pass_compression {n : Nat} {ops : List (Nat × Nat)}
    (hops : OpsInRange n ops) {p : Nat} (hp : p < n) :
    ((execUnions n ops).find p).2 =
      rootAux (execUnions n ops).parent (execUnions n ops).n p ∧
    (∀ x ∈ pathList (execUnions n ops).parent (execUnions n ops).n p,
      ((execUnions n ops).find p).1.parent x =
        ((execUnions n ops).find p).2) ∧
    (∀ x, x ∉ pathList (execUnions n ops).parent (execUnions n ops).n p →
      ((execUnions n ops).find p).1.parent x =
        (execUnions n ops).parent x) ∧
    (∀ j, j < n →
      RootParent ((List.range n).foldl (fun t i => (t.find i).1)
        (execUnions n ops)) j) := by
  have ht := tracks_exec n ops hops
  have hp' : p < (execUnions n ops).n := by rw [ht.hn]; exact hp
  refine ⟨rfl, ?_, ?_, ?_⟩
  · intro x hx
    rw [find_parent_eq ht.inv hp' x, if_pos hx, find_root]
  · intro x hx
    rw [find_parent_eq ht.inv hp' x, if_neg hx]
  · intro j hj
    have hall := fold_find_spec (List.range n) (execUnions n ops) ht.inv
      (fun i hi => by rw [ht.hn]; exact List.mem_range.1 hi)
    exact hall.2.2.2 j (List.mem_range.2 hj)

/-- Witness for C4 at n = 3 after the union (0,1), finding 1. -/
theorem claimC4_two_pass_compression_witness :
    OpsInRange 3 [(0, 1)] ∧ (1 : Nat) < 3 ∧
    ((execUnions 3 [(0, 1)]).find 1).2 =
      rootAux (execUnions 3 [(0, 1)]).parent (execUnions 3 [(0, 1)]).n 1 :=
  ⟨by decide, by decide,
    (@claimC4_two_pass_compression 3 [(0, 1)] (by decide) 1 (by decide)).1⟩

/-- C5: for a structure created with n ≥ 1, `count()` starts at `n`,
always equals the number of distinct roots, drops by exactly 1 on a
union of two distinct sets and is unchanged by a union of an
already-connected pair, is unchanged by `find` and `is_connected`
calls, and never falls below 1. -/
theorem claimC5_count_invariants {n : Nat} (hn : 1 ≤ n)
    {ops : List (Nat × Nat)} (hops : OpsInRange n ops) :
    (WQU.init n).count = (n : Int) ∧
    (execUnions n ops).count = ((roots (execUnions n ops)).card : Int) ∧
    (∀ p q, p < n → q < n →
      ((execUnions n ops).union p q).count =
        (if rootOf (execUnions n ops) p = rootOf (execUnions n ops) q
          then (execUnions n ops).count else (execUnions n ops).count - 1)) ∧
    (∀ p, (((execUnions n ops).find p).1).count = (execUnions n ops).count) ∧
    (∀ p q, (((execUnions n ops).is_connected p q).1).count =
      (execUnions n ops).count) ∧
    1 ≤ (execUnions n ops).count := by
  have ht := tracks_exec n ops hops
  refine ⟨rfl, ht.cnt, ?_, fun p => rfl, fun p q => rfl, ?_⟩
  · intro p q hp hq
    have hp' : p < (execUnions n ops).n := by rw [ht.hn]; exact hp
    have hq' : q < (execUnions n ops).n := by rw [ht.hn]; exact hq
    by_cases heq : rootOf (execUnions n ops) p = rootOf (execUnions n ops) q
    · rw [if_pos heq]
      exact (union_spec_eq ht.inv hp' hq' heq.symm).2.2.1
    · rw [if_neg heq]
      exact (union_spec_ne ht.inv hp' hq' (fun hc => heq hc.symm)).2.2.1
  · have h0 : (0 : Nat) < (execUnions n ops).n := by rw [ht.hn]; omega
    have hmem := rootOf_mem_roots ht.inv h0
    have hpos : 0 < (roots (execUnions n ops)).card :=
      Finset.card_pos.2 ⟨_, hmem⟩
    show 1 ≤ (execUnions n ops).cnt
    rw [ht.cnt]
    exact_mod_cast hpos

/-- Witness for C5 at n = 2 after the union (0,1). -/
theorem claimC5_count_invariants_witness :
    1 ≤ 2 ∧ OpsInRange 2 [(0, 1)] ∧ 1 ≤ (execUnions 2 [(0, 1)]).count :=
  ⟨by decide, by decide,
    (@claimC5_count_invariants 2 (by decide) [(0, 1)] (by decide)).2.2.2.2.2⟩

/-- C6 counterexample: `numpy.random.randint(0, len(not_care_ls))`
excludes its upper bound, so for the 5×3 maze (two junction dots) the
count 2 claimed attainable by the spec is outside the draw's support. -/
theorem claimC6_randint_counterexample :
    (notCareList 5 3).length = 2 ∧
    2 ∉ numpy_randint_support 0 (notCareList 5 3).length := by decide

/-- C6 (amended): the cosmetic pass draws the count from the
half-open range `[0, number_of_junction_dots)` (the upper bound is
excluded by `numpy.random.randint`), marks the selected junction dots
passable, touches no disjoint-set state, and leaves the room graph —
hence reachability between rooms — unchanged. -/
theorem claimC6_cosmetic_amended {w h : Nat} (sel : List Nat)
    (hsel : ∀ i ∈ sel, i < (notCareList w h).length) (g : Nat → Nat → Nat) :
    numpy_randint_support 0 (notCareList w h).length =
      Finset.range (notCareList w h).length ∧
    (notCareList w h).length ∉
      numpy_randint_support 0 (notCareList w h).length ∧
    (∀ i ∈ sel, cosmetic w h g sel ((notCareList w h).getD i (0, 0)).1
      ((notCareList w h).getD i (0, 0)).2 = 0) ∧
    roomGraph w h (cosmetic w h g sel) = roomGraph w h g := by
  refine ⟨?_, ?_, cosmetic_sets w h sel g, ?_⟩
  · rw [Finset.range_eq_Ico]
    rfl
  · simp [numpy_randint_support]
  · refine roomGraph_congr ?_
    intro a b hab
    refine cosmetic_eq_of_parity w h sel hsel g a b ?_
    intro hodd
    obtain ⟨o1, o2⟩ := hodd
    rcases hab with ⟨h1, h2⟩ | ⟨h1, h2⟩ <;> omega

/-- Witness for the amended C6 on the 5×3 maze, opening dot 0. -/
theorem claimC6_cosmetic_amended_witness :
    (∀ i ∈ [0], i < (notCareList 5 3).length) ∧
    roomGraph 5 3 (cosmetic 5 3 initialGrid [0]) =
      roomGraph 5 3 initialGrid :=
  ⟨by decide,
    (@claimC6_cosmetic_amended 5 3 [0] (by decide) initialGrid).2.2.2⟩

/-- C7: constructing a `KruskalMaze` with an even or too-small height
fails with the height error; with a valid height but an even or
too-small width it fails with the width error (in both cases before
any grid or disjoint-set work); width 4, height 2 and width 1 all
fail, while width 5 × height 3 succeeds. -/
theorem claimC7_dimension_validation (ws : List (Nat × Nat))
    (sel : List Nat) :
    (∀ wd ht : Nat, ht % 2 = 0 ∨ ht < 3 →
      KruskalMaze.make wd ht ws sel =
        Except.error "illegal height because each wall's height is one.") ∧
    (∀ wd ht : Nat, ht % 2 = 1 → 3 ≤ ht → wd % 2 = 0 ∨ wd < 3 →
      KruskalMaze.make wd ht ws sel =
        Except.error "illegal width because each wall's width is one.") ∧
    (∃ e, KruskalMaze.make 4 5 ws sel = Except.error e) ∧
    (∃ e, KruskalMaze.make 5 2 ws sel = Except.error e) ∧
    (∃ e, KruskalMaze.make 1 5 ws sel = Except.error e) ∧
    KruskalMaze.make 5 3 ws sel =
      Except.ok ⟨5, 3, cosmetic 5 3 (carveResult 5 3 ws).2 sel⟩ := by
  refine ⟨?_, ?_, ⟨_, rfl⟩, ⟨_, rfl⟩, ⟨_, rfl⟩, rfl⟩
  · intro wd ht hht
    have hcond : (ht % 2 == 0 || decide (ht < 3)) = true := by
      rw [Bool.or_eq_true]
      rcases hht with hc | hc
      · exact Or.inl (by rw [beq_iff_eq]; exact hc)
      · exact Or.inr (by rw [decide_eq_true_eq]; exact hc)
    unfold KruskalMaze.make
    rw [if_pos hcond]
  · intro wd ht h1 h2 hwd
    have hcondh : ¬ ((ht % 2 == 0 || decide (ht < 3)) = true) := by
      rw [Bool.or_eq_true]
      rintro (hc | hc)
      · rw [beq_iff_eq] at hc; omega
      · rw [decide_eq_true_eq] at hc; omega
    have hcondw : (wd % 2 == 0 || decide (wd < 3)) = true := by
      rw [Bool.or_eq_true]
      rcases hwd with hc | hc
      · exact Or.inl (by rw [beq_iff_eq]; exact hc)
      · exact Or.inr (by rw [decide_eq_true_eq]; exact hc)
    unfold KruskalMaze.make
    rw [if_neg hcondh, if_pos hcondw]

/-- C8 counterexample: constructing with n = -1 does not fail — the
source has no size validation — it builds an empty structure whose
`count()` is -1. -/
theorem claimC8_init_counterexample :
    (WQU.initI (-1)).cnt = -1 ∧ (WQU.initI (-1)).n = 0 ∧
    (WQU.initI (-1)).count = -1 := by decide

/-- C8 (amended): `__init__(n)` performs no validation for any integer
`n`: it always sets `_count = n` (negative included) and fills the
maps with `max n 0` singletons, each element its own root with size 1;
for natural `n` this yields `n` singleton sets with `count() = n`. -/
theorem claimC8_init_amended (m : Int) (n : Nat) :
    (WQU.initI m).cnt = m ∧
    (WQU.initI m).n = m.toNat ∧
    (∀ i, (WQU.initI m).parent i = i) ∧
    (∀ i, (WQU.initI m).sz i = 1) ∧
    (WQU.init n).count = (n : Int) ∧
    (WQU.init n).n = n := by
  refine ⟨rfl, rfl, fun i => rfl, fun i => rfl, rfl, ?_⟩
  show (Int.ofNat n).toNat = n
  rfl

/-- C9: the compression pass of `find` resets every compressed node's
recorded size to the constant 2, yet the structure stays observably
correct: it is bisimilar to the exact-size variant — identical parent
maps and counts after any in-range operation sequence, identical
`is_connected` answers — and `count()` still equals the number of
distinct roots. -/
theorem claimC9_size_reset_harmless {n : Nat} {ops : List (Nat × Nat)}
    (hops : OpsInRange n ops) :
    (∀ p, p < n →
      ∀ x ∈ pathList (execUnions n ops).parent (execUnions n ops).n p,
        ((execUnions n ops).find p).1.sz x = 2) ∧
    (execUnionsE n ops).parent = (execUnions n ops).parent ∧
    (execUnionsE n ops).cnt = (execUnions n ops).cnt ∧
    (∀ p q, p < n → q < n →
      (is_connectedE (execUnionsE n ops) p q).2 =
        ((execUnions n ops).is_connected p q).2) ∧
    (execUnions n ops).count = ((roots (execUnions n ops)).card : Int) := by
  have ht := tracks_exec n ops hops
  have ha := exec_bisim n ops hops
  refine ⟨?_, ha.hparent, ha.hcnt, ?_, ht.cnt⟩
  · intro p hp x hx
    have hp' : p < (execUnions n ops).n := by rw [ht.hn]; exact hp
    rw [find_sz_eq ht.inv hp' x, if_pos hx]
  · intro p q hp hq
    have hp' : p < (execUnions n ops).n := by rw [ht.hn]; exact hp
    have hq' : q < (execUnions n ops).n := by rw [ht.hn]; exact hq
    obtain ⟨ha1, he1⟩ := findE_bisim ht.inv ha hp'
    have hq'' : q < ((execUnions n ops).find p).1.n := by
      rw [find_n]; exact hq'
    obtain ⟨ha2, he2⟩ := findE_bisim (find_inv ht.inv hp') ha1 hq''
    show ((findE (execUnionsE n ops) p).2 ==
        (findE (findE (execUnionsE n ops) p).1 q).2) =
      (((execUnions n ops).find p).2 ==
        (((execUnions n ops).find p).1.find q).2)
    rw [he1, he2]

/-- Witness for C9 at n = 3 after unions (0,1) and (1,2). -/
theorem claimC9_size_reset_harmless_witness :
    OpsInRange 3 [(0, 1), (1, 2)] ∧
    (execUnionsE 3 [(0, 1), (1, 2)]).cnt =
      (execUnions 3 [(0, 1), (1, 2)]).cnt :=
  ⟨by decide,
    (@claimC9_size_reset_harmless 3 [(0, 1), (1, 2)] (by decide)).2.2.1⟩

/-- C10: after the all-walls allocation every write is a 0 (passable),
so the grid decreases pointwise through the marking, carving and
cosmetic stages, the finished grid holds only 0 and 1, and every room
cell is 0 in the output. -/
theorem claimC10_grid_monotone (w h : Nat) (ws : List (Nat × Nat))
    (sel : List Nat) :
    (∀ a b, markCells initialGrid (cellList w h) a b ≤ initialGrid a b) ∧
    (∀ a b, (carveResult w h ws).2 a b ≤
      markCells initialGrid (cellList w h) a b) ∧
    (∀ a b, cosmetic w h (carveResult w h ws).2 sel a b ≤
      (carveResult w h ws).2 a b) ∧
    (∀ a b, cosmetic w h (carveResult w h ws).2 sel a b = 0 ∨
      cosmetic w h (carveResult w h ws).2 sel a b = 1) ∧
    (∀ p ∈ cellList w h,
      cosmetic w h (carveResult w h ws).2 sel p.1 p.2 = 0) := by
  have h1 : ∀ a b, markCells initialGrid (cellList w h) a b ≤
      initialGrid a b := fun a b => markCells_le _ _ a b
  have h2 : ∀ a b, (carveResult w h ws).2 a b ≤
      markCells initialGrid (cellList w h) a b :=
    fun a b => carve_grid_le ws _ a b
  have h3 : ∀ a b, cosmetic w h (carveResult w h ws).2 sel a b ≤
      (carveResult w h ws).2 a b :=
    fun a b => cosmetic_le w h sel _ a b
  refine ⟨h1, h2, h3, ?_, ?_⟩
  · intro a b
    have c1 := h1 a b
    have c2 := h2 a b
    have c3 := h3 a b
    have c0 : initialGrid a b = 1 := rfl
    omega
  · intro p hp
    have hm : markCells initialGrid (cellList w h) p.1 p.2 = 0 := by
      rw [markCells_eq, if_pos hp]
    have c2 := h2 p.1 p.2
    have c3 := h3 p.1 p.2
    omega

end MazeAlgo
